import Mathlib

/-!
# pmtf: the `pmt` value, its wire codec and its tag dispatch

A shallow embedding of `include/pmtf/base.hpp` and `include/pmtf/wrap.hpp`.

* A byte is a `Fin 256`; a `uint32_t` is a natural number below `2^32`, laid
  out little-endian (the byte order the reference code assumes).
* A `std::streambuf` used as a source is the list of bytes it still holds;
  used as a sink it is the list of bytes written so far, and it accepts every
  byte offered (for `base::serialize` the sink has room for a given number of
  bytes).
* `std::shared_ptr` fields are `Option`s (`none` is `nullptr`); sharing is not
  modelled, a `pmt` is a finite tree.
* `std::map<std::string, pmt>` is the list of its entries in iteration order,
  that is in ascending key order.
* The accessors generated by flatbuffers (`pmtf_generated.h`) are a parameter,
  `Codec`: every theorem holds for every codec.
* Storage that the program reads without having written it (a local that a
  short read left untouched, a fresh `new char[]`, the bytes behind the
  terminator of a `std::string`) is a parameter as well.
* A thrown exception and a dereferenced null pointer are `Fault`s. Memory is
  not bounded: `new` and `resize` always succeed, `std::bad_alloc` is not
  modelled.
-/

namespace pmtf

/-! ## Bytes and fixed-width integers -/

abbrev Byte := Fin 256

/-- Object representation of a `uint32_t` holding `n` (reduced modulo `2^32`). -/
def u32_bytes (n : Nat) : List Byte :=
  [Fin.ofNat n, Fin.ofNat (n / 256), Fin.ofNat (n / 65536), Fin.ofNat (n / 16777216)]

/-- Value of an unsigned integer from its little-endian object representation. -/
def le_value : List Byte → Nat
  | [] => 0
  | b :: bs => b.val + 256 * le_value bs

/-! ## Type tags and the generated accessors -/

/-- Modelled from the spec: the enumeration `Data` is declared in the generated
header `pmtf_generated.h`, which is not among the sources. The enumerators are
the ones the sources name (`NONE`, the twelve `Scalar*`, the twelve `Vector*`,
`MapHeaderString`); `other code` stands for any further enumerator, none of
which occurs in a `case` label (for instance `ScalarBool`, named only in a
commented-out line). -/
inductive Data where
  | NONE
  | ScalarFloat32 | ScalarFloat64 | ScalarComplex64 | ScalarComplex128
  | ScalarInt8 | ScalarInt16 | ScalarInt32 | ScalarInt64
  | ScalarUInt8 | ScalarUInt16 | ScalarUInt32 | ScalarUInt64
  | VectorFloat32 | VectorFloat64 | VectorComplex64 | VectorComplex128
  | VectorInt8 | VectorInt16 | VectorInt32 | VectorInt64
  | VectorUInt8 | VectorUInt16 | VectorUInt32 | VectorUInt64
  | MapHeaderString
  | other (code : Nat)
deriving DecidableEq, Repr

/-- The flatbuffers accessors the code calls on a size-prefixed block:
`GetSizePrefixedPmt(p)->data_type()` and
`GetSizePrefixedPmt(p)->data_as<MapHeaderString>()->count()` (a `uint32_t`),
both as functions of the bytes found at `p`. -/
structure Codec where
  data_type : List Byte → Data
  count : List Byte → Nat

/-! ## Faults -/

/-- What a call can end in instead of returning: a thrown
`std::runtime_error(what)`, or a read through a null pointer. -/
inductive Fault where
  | runtime_error (what : String)
  | null_dereference
deriving DecidableEq, Repr

/-! ## `base_buffer` and `pmt` -/

/-- The class `base_buffer`: a `flatbuffers::DetachedBuffer`, of which the code
uses the data pointer (`raw`, the bytes of the allocation it points into) and
the recorded `size`. -/
structure base_buffer where
  raw : List Byte
  size : Nat
deriving DecidableEq, Repr

/-- Member `base_buffer::data_type`: `data()->data_type()`. -/
def base_buffer.data_type (c : Codec) (b : base_buffer) : Data :=
  c.data_type b.raw

/-- The struct `pmt`: the two shared pointers `_scalar` and `_map`. -/
inductive pmt where
  | mk (_scalar : Option base_buffer) (_map : Option (List (List Byte × pmt)))

/-- Field `_scalar`. -/
def pmt._scalar : pmt → Option base_buffer
  | .mk s _ => s

/-- Field `_map`. -/
def pmt._map : pmt → Option (List (List Byte × pmt))
  | .mk _ m => m

/-- Constructor `pmt()`. -/
def pmt.default : pmt := .mk none none

/-- Constructor `pmt(const std::shared_ptr<base_buffer>&)`. -/
def pmt.of_buffer (other : Option base_buffer) : pmt := .mk other none

/-- Member `pmt::data_type`. -/
def pmt.data_type (c : Codec) (v : pmt) : Except Fault Data :=
  match v._scalar with
  | some b => .ok (b.data_type c)
  | none => .error (.runtime_error "Cannot get data type for unitialized pmt")

/-! ## `std::map<std::string, pmt>` -/

/-- The assignment `m[k] = v` on a `std::map`: the entry of `k` is overwritten
when there is one, and inserted at its place in key order otherwise. -/
def map_assign {α : Type} (k : List Byte) (v : α) :
    List (List Byte × α) → List (List Byte × α)
  | [] => [(k, v)]
  | (k1, v1) :: rest =>
    if k < k1 then (k, v) :: (k1, v1) :: rest
    else if k = k1 then (k, v) :: rest
    else (k1, v1) :: map_assign k v rest

/-- Member `std::map::find`, as the value found. -/
def map_find {α : Type} (k : List Byte) : List (List Byte × α) → Option α
  | [] => none
  | (k1, v1) :: rest => if k = k1 then some v1 else map_find k rest

/-! ## Streams and storage -/

/-- Call `sb.sgetn(s, n)` on a source holding `sb`: the characters delivered
(`n` of them, or all that are left when there are fewer) and the source after
the call. -/
def sgetn (sb : List Byte) (n : Nat) : List Byte × List Byte :=
  (sb.take n, sb.drop n)

/-- Storage `dst` after the bytes `got` were copied to its start: what the copy
did not reach keeps its previous contents. -/
def store (got dst : List Byte) : List Byte :=
  got ++ dst.drop got.length

/-- Contents of `n` bytes of storage nobody has written yet, `u i` being the
byte found at offset `i`. -/
def uninit (u : Nat → Byte) (n : Nat) : List Byte :=
  (List.range n).map u

/-- Call `data.resize(n)` on a `std::vector<char>`. -/
def resize (data : List Byte) (n : Nat) : List Byte :=
  data.take n ++ List.replicate (n - data.length) 0

/-- The memory `k.c_str()` points at, as far as `serialize` can reach into it:
the characters of `k`, the terminator, and three bytes behind it, which do not
belong to the string (`past k i` is the byte `i` places behind the terminator). -/
def c_str (past : List Byte → Nat → Byte) (k : List Byte) : List Byte :=
  k ++ 0 :: (List.range 3).map (past k)

/-- Call `sb.sputn(s, n)` on a sink holding `sb`, where `s` is the memory the
pointer argument points at. -/
def sputn (sb s : List Byte) (n : Nat) : List Byte :=
  sb ++ s.take n

/-! ## The wire codec -/

mutual
/-- Member `pmt::serialize`: the returned `size_t` and the sink after the call.
The line written to `std::cout` is not part of the sink and is left out. -/
def pmt.serialize (past : List Byte → Nat → Byte) :
    pmt → List Byte → Except Fault (Nat × List Byte)
  | .mk none _, _ => .error .null_dereference
  | .mk (some b) m, sb =>
    -- size_t length = 0; length += sb.sputn(raw(), size());
    let length := 0 + b.size
    let sb := sputn sb b.raw b.size
    match m with
    | none => .ok (length, sb)
    | some entries =>
      match serialize_entries past entries sb with
      | .error e => .error e
      | .ok sb => .ok (length, sb)
/-- The loop of `pmt::serialize` over the entries of `*_map`. Inside the `if`
the name `length` is the `uint32_t` declared there; its last value is dropped
at the end of the block. -/
def serialize_entries (past : List Byte → Nat → Byte) :
    List (List Byte × pmt) → List Byte → Except Fault (List Byte)
  | [], sb => .ok sb
  | (k, v) :: rest, sb =>
    -- length = k.size();
    let length := k.length % 4294967296
    -- length += sb.sputn(reinterpret_cast<const char*>(&length), sizeof(uint32_t));
    let sb := sputn sb (u32_bytes length) 4
    let length := (length + 4) % 4294967296
    -- length += sb.sputn(k.c_str(), length);
    let sb := sputn sb (c_str past k) length
    -- length += v.serialize(sb);
    match pmt.serialize past v sb with
    | .error e => .error e
    | .ok (_, sb) => serialize_entries past rest sb
end

/-- The `for` loop of `pmt::deserialize`, `child` being the recursive call.
`size` is the object representation of the local `size` and `data` the local
vector; both keep their contents from one pass to the next. -/
def deserialize_entries (child : List Byte → Option (Except Fault (pmt × List Byte))) :
    Nat → List Byte → List Byte → List (List Byte × pmt) → List Byte →
      Option (Except Fault (List (List Byte × pmt) × List Byte))
  | 0, _, _, m, sb => some (.ok (m, sb))
  | count + 1, size, data, m, sb =>
    -- sb.sgetn(reinterpret_cast<char*>(&size), sizeof(uint32_t));
    let r1 := sgetn sb 4
    let size := store r1.1 size
    -- data.resize(size); sb.sgetn(data.data(), size);
    let data := resize data (le_value size)
    let r2 := sgetn r1.2 (le_value size)
    let data := store r2.1 data
    -- (*cur._map)[std::string(data.begin(), data.end())] = deserialize(sb);
    match child r2.2 with
    | none => none
    | some (.error e) => some (.error e)
    | some (.ok (v, sb)) => deserialize_entries child count size data (map_assign data v m) sb

/-- Lines 90 to 98 of `pmt::deserialize`: the size field and the block are read
into storage whose previous contents are `u`; the result is the buffer built
over the block, the object representation of `size`, and the source after the
two reads. -/
def read_block (u : Nat → Byte) (sb : List Byte) : base_buffer × List Byte × List Byte :=
  -- uint32_t size; sb.sgetn(reinterpret_cast<char*>(&size), sizeof(size));
  let r1 := sgetn sb 4
  let size := store r1.1 (uninit u 4)
  -- char* x = new char[size + sizeof(uint32_t)]; *reinterpret_cast<uint32_t*>(x) = size;
  let x := store size (uninit u (le_value size + 4))
  -- sb.sgetn(x + sizeof(uint32_t), size);
  let r2 := sgetn r1.2 (le_value size)
  let x := x.take 4 ++ store r2.1 (x.drop 4)
  -- DetachedBuffer buf(nullptr, false, nullptr, 0, reinterpret_cast<uint8_t*>(x), size);
  (⟨x, le_value size⟩, size, r2.2)

/-- Static member `pmt::deserialize`: the value returned and the source after
the call. The first argument bounds the depth of the recursion: the result is
`none` when the call would nest deeper. -/
def pmt.deserialize (c : Codec) (u : Nat → Byte) :
    Nat → List Byte → Option (Except Fault (pmt × List Byte))
  | 0, _ => none
  | depth + 1, sb =>
    let blk := read_block u sb
    let cur := pmt.of_buffer (some blk.1)
    match cur.data_type c with
    | .error e => some (.error e)
    | .ok t =>
      if t = Data.MapHeaderString then
        -- cur._map = std::make_shared<std::map<std::string, pmt>>();
        -- uint32_t count = cur._scalar->data_as<MapHeaderString>()->count();
        match deserialize_entries (pmt.deserialize c u depth) (c.count blk.1.raw)
            blk.2.1 [] [] blk.2.2 with
        | none => none
        | some (.error e) => some (.error e)
        | some (.ok (m, sb)) => some (.ok (.mk cur._scalar (some m), sb))
      else some (.ok (cur, blk.2.2))

/-! ## A codec to run the definitions on

The theorems below hold for every codec. To evaluate the definitions on
concrete bytes, `sample_codec` reads the tag from the first byte behind the
size prefix and the count from the byte after it. -/

/-- Tag with a given number: the enumerators in the order of `Data`. -/
def Data.of_code : Nat → Data
  | 0 => .NONE
  | 1 => .ScalarFloat32 | 2 => .ScalarFloat64 | 3 => .ScalarComplex64 | 4 => .ScalarComplex128
  | 5 => .ScalarInt8 | 6 => .ScalarInt16 | 7 => .ScalarInt32 | 8 => .ScalarInt64
  | 9 => .ScalarUInt8 | 10 => .ScalarUInt16 | 11 => .ScalarUInt32 | 12 => .ScalarUInt64
  | 13 => .VectorFloat32 | 14 => .VectorFloat64 | 15 => .VectorComplex64
  | 16 => .VectorComplex128
  | 17 => .VectorInt8 | 18 => .VectorInt16 | 19 => .VectorInt32 | 20 => .VectorInt64
  | 21 => .VectorUInt8 | 22 => .VectorUInt16 | 23 => .VectorUInt32 | 24 => .VectorUInt64
  | 25 => .MapHeaderString
  | n => .other n

/-- A small codec: byte 4 of the block is the tag, byte 5 the count. -/
def sample_codec : Codec where
  data_type := fun p => Data.of_code ((p.getD 4 0).val)
  count := fun p => (p.getD 5 0).val

/-- Unwritten storage that happens to hold zeros. -/
def zeros : Nat → Byte := fun _ => 0

/-- Memory behind every key that happens to hold zeros. -/
def zeros_past : List Byte → Nat → Byte := fun _ _ => 0

/-! ## The dispatch layer (`wrap.hpp`) -/

/-- The element types `T` of `scalar<T>` and `vector<T>` that the dispatch names. -/
inductive Elem where
  | float | double | complex_float | complex_double
  | int8_t | int16_t | int32_t | int64_t
  | uint8_t | uint16_t | uint32_t | uint64_t
deriving DecidableEq, Repr

/-- The wrapper a `case` of the dispatch builds around the value before it
prints it: `scalar<T>(value)`, `vector<T>(value)` or `map(value)`. -/
inductive Family where
  | scalar (T : Elem)
  | vector (T : Elem)
  | map
deriving DecidableEq, Repr

/-- The formatters of the element families, `operator<<(os, const scalar<T>&)`
and `operator<<(os, const vector<T>&)` applied to the wrapper built from the
value. They are declared in `scalar.hpp` and `vector.hpp`, which are not among
the sources, and are a parameter: the text the call writes to the stream, and
the fault it ends in, if any. -/
structure Formatters where
  scalar : Elem → pmt → String × Option Fault
  vector : Elem → pmt → String × Option Fault

/-- The `case` labels of the `switch` in `operator<<(std::ostream&, const pmt&)`,
in the order of the source; `none` is the `default` label. -/
def switch_case : Data → Option Family
  | .ScalarFloat32 => some (.scalar .float)
  | .ScalarFloat64 => some (.scalar .double)
  | .ScalarComplex64 => some (.scalar .complex_float)
  | .ScalarComplex128 => some (.scalar .complex_double)
  | .ScalarInt8 => some (.scalar .int8_t)
  | .ScalarInt16 => some (.scalar .int16_t)
  | .ScalarInt32 => some (.scalar .int32_t)
  | .ScalarInt64 => some (.scalar .int64_t)
  | .ScalarUInt8 => some (.scalar .uint8_t)
  | .ScalarUInt16 => some (.scalar .uint16_t)
  | .ScalarUInt32 => some (.scalar .uint32_t)
  | .ScalarUInt64 => some (.scalar .uint64_t)
  | .VectorFloat32 => some (.vector .float)
  | .VectorFloat64 => some (.vector .double)
  | .VectorComplex64 => some (.vector .complex_float)
  | .VectorComplex128 => some (.vector .complex_double)
  | .VectorInt8 => some (.vector .int8_t)
  | .VectorInt16 => some (.vector .int16_t)
  | .VectorInt32 => some (.vector .int32_t)
  | .VectorInt64 => some (.vector .int64_t)
  | .VectorUInt8 => some (.vector .uint8_t)
  | .VectorUInt16 => some (.vector .uint16_t)
  | .VectorUInt32 => some (.vector .uint32_t)
  | .VectorUInt64 => some (.vector .uint64_t)
  | .MapHeaderString => some .map
  | _ => none

/-- The characters `os << k` writes for a key. -/
def key_text (k : List Byte) : String :=
  String.mk (k.map fun b => Char.ofNat b.val)

/-- A stream after a family formatter ran on it. -/
def put (os : String) (r : String × Option Fault) : String × Option Fault :=
  (os ++ r.1, r.2)

mutual
/-- The function `operator<<(std::ostream&, const pmt&)`: the stream after the
call, and the fault the call ends in, if any. In the `MapHeaderString` case the
body of `operator<<(std::ostream&, const map&)` is run on `map(value)`, the
view of `*value._map` (see `map` below); with a null `_map` that is a read
through a null pointer. -/
def operator_shl_pmt (c : Codec) (F : Formatters) : pmt → String → String × Option Fault
  | .mk s m, os =>
    match (pmt.mk s m).data_type c with
    | .error e => (os, some e)
    | .ok tag =>
      match switch_case tag with
      | some (.scalar T) => put os (F.scalar T (.mk s m))
      | some (.vector T) => put os (F.vector T (.mk s m))
      | some .map =>
        match m with
        | none => (os, some .null_dereference)
        | some entries =>
          match operator_shl_entries c F entries true (os ++ "\x7b ") with
          | (os, some e) => (os, some e)
          | (os, none) => (os ++ " \x7d", none)
      | none => (os, some (.runtime_error "Cannot convert non scalar pmt."))
/-- The `for` loop of `operator<<(std::ostream&, const map&)`; the flag is the
local `first`. -/
def operator_shl_entries (c : Codec) (F : Formatters) :
    List (List Byte × pmt) → Bool → String → String × Option Fault
  | [], _, os => (os, none)
  | (k, v) :: rest, first, os =>
    -- if (!first) os << ", "; first = false;
    let os := if !first then os ++ ", " else os
    -- os << k << ": " << v;
    match operator_shl_pmt c F v (os ++ key_text k ++ ": ") with
    | (os, some e) => (os, some e)
    | (os, none) => operator_shl_entries c F rest false os
end

/-- Modelled from the spec: the class `map` is declared in `map.hpp`, which is
not among the sources. A `map` is taken to be the view of the mapping of a
Value in Map state: the entries `(key, child)` it iterates over, in the
iteration order of the ordered-by-key mapping. -/
abbrev map := List (List Byte × pmt)

/-- The function `operator<<(std::ostream&, const map&)`. -/
def operator_shl_map (c : Codec) (F : Formatters) (value : map) (os : String) :
    String × Option Fault :=
  -- os << "{ ";
  match operator_shl_entries c F value true (os ++ "\x7b ") with
  | (os, some e) => (os, some e)
  -- os << " }";
  | (os, none) => (os ++ " \x7d", none)

/-- The function template `operator==(const pmt&, const T&)`. The comparison
`operator==(vector<int32_t>(value), other)` is declared in `vector.hpp`, which
is not among the sources, and is the parameter `vector_int32_eq`. -/
def operator_eq {T : Type} (c : Codec) (vector_int32_eq : pmt → T → Except Fault Bool)
    (value : pmt) (other : T) : Except Fault Bool :=
  match value.data_type c with
  | .error e => .error e
  | .ok .VectorInt32 => vector_int32_eq value other
  | .ok _ => .error (.runtime_error "Unknown pmt type passed to operator==")

/-- Formatters to run the dispatch on: a scalar prints byte 5 of its block in
decimal, a vector prints the bytes from byte 5 on, bracketed and separated by
commas. -/
def sample_formatters : Formatters where
  scalar := fun _ v =>
    match v._scalar with
    | some b => (toString (b.raw.getD 5 0).val, none)
    | none => ("", some .null_dereference)
  vector := fun _ v =>
    match v._scalar with
    | some b => ("[" ++ ", ".intercalate ((b.raw.drop 5).map fun x => toString x.val) ++ "]", none)
    | none => ("", some .null_dereference)

/-! ## Definitions the statements use -/

/-- One `MapEntry` of the wire grammar, `KeyLength(u32) KeyBytes Frame`, for
the key `k` and the bytes `frame` of the nested frame. -/
def map_entry_bytes (k frame : List Byte) : List Byte :=
  u32_bytes k.length ++ (k ++ frame)

/-- The bytes of a sequence of map entries, each given as its key, the bytes of
its nested frame and the value that frame stands for. -/
def map_entries_bytes : List (List Byte × List Byte × pmt) → List Byte
  | [] => []
  | e :: rest => map_entry_bytes e.1 e.2.1 ++ map_entries_bytes rest

/-- The value of the last entry of the sequence that carries the key `k`. -/
def last_bound (k : List Byte) : List (List Byte × List Byte × pmt) → Option pmt
  | [] => none
  | e :: rest =>
    match last_bound k rest with
    | some v => some v
    | none => if k = e.1 then some e.2.2 else none

/-- The bytes `frame` are a well-formed frame that `deserialize`, nesting at
most `depth` deep, decodes to `v`: run on a source that begins with `frame` it
returns `v` and leaves what follows. -/
def decodes (c : Codec) (u : Nat → Byte) (depth : Nat) (frame : List Byte) (v : pmt) : Prop :=
  ∀ rest, pmt.deserialize c u depth (frame ++ rest) = some (.ok (v, rest))

/-- The tag `Scalar<T>` of an element type. -/
def Data.Scalar : Elem → Data
  | .float => .ScalarFloat32 | .double => .ScalarFloat64
  | .complex_float => .ScalarComplex64 | .complex_double => .ScalarComplex128
  | .int8_t => .ScalarInt8 | .int16_t => .ScalarInt16
  | .int32_t => .ScalarInt32 | .int64_t => .ScalarInt64
  | .uint8_t => .ScalarUInt8 | .uint16_t => .ScalarUInt16
  | .uint32_t => .ScalarUInt32 | .uint64_t => .ScalarUInt64

/-- The tag `Vector<T>` of an element type. -/
def Data.Vector : Elem → Data
  | .float => .VectorFloat32 | .double => .VectorFloat64
  | .complex_float => .VectorComplex64 | .complex_double => .VectorComplex128
  | .int8_t => .VectorInt8 | .int16_t => .VectorInt16
  | .int32_t => .VectorInt32 | .int64_t => .VectorInt64
  | .uint8_t => .VectorUInt8 | .uint16_t => .VectorUInt16
  | .uint32_t => .VectorUInt32 | .uint64_t => .VectorUInt64

/-- The tag is one of the twelve `Scalar<T>`, the twelve `Vector<T>` or
`MapHeaderString`. -/
def Data.supported (t : Data) : Prop :=
  (∃ T, t = Data.Scalar T) ∨ (∃ T, t = Data.Vector T) ∨ t = Data.MapHeaderString

/-- The text `format(v)` and the fault it ends in: `operator<<` run on an empty
stream. -/
def format (c : Codec) (F : Formatters) (v : pmt) : String × Option Fault :=
  operator_shl_pmt c F v ""

mutual
/-- The wire format of a Value as the specification words it (section 4.4,
`serialize`, steps 1 and 2): the bytes of the Value's own buffer, then for
every entry the length of the key as a `uint32`, the bytes of the key, and the
wire format of the child. -/
def wire_format : pmt → List Byte
  | .mk s m =>
    (match s with
      | some b => b.raw.take b.size
      | none => []) ++
    (match m with
      | some entries => wire_format_entries entries
      | none => [])
/-- The entries of a map in the wire format of the specification. -/
def wire_format_entries : List (List Byte × pmt) → List Byte
  | [] => []
  | (k, v) :: rest => u32_bytes k.length ++ k ++ wire_format v ++ wire_format_entries rest
end

/-- A scalar Value: a block of five bytes behind its size prefix, tagged
`ScalarInt32` under `sample_codec`. -/
def sample_scalar : pmt := pmt.of_buffer (some ⟨[5, 0, 0, 0, 7, 1, 2, 3, 4], 9⟩)

/-- A Value in Map state with the one entry `"a"`, bound to `sample_scalar`;
its header block is tagged `MapHeaderString` and records the count 1 under
`sample_codec`. -/
def sample_map : pmt :=
  .mk (some ⟨[2, 0, 0, 0, 25, 1], 6⟩) (some [([97], sample_scalar)])

/-! ## The legacy class `base` -/

/-- The `flatbuffers::DetachedBuffer` member `_buf` of `base`, of which the
code uses `data()` (the bytes it points at) and `size()`. -/
structure DetachedBuffer where
  data : List Byte
  size : Nat
deriving DecidableEq, Repr

/-- The class `base`, reduced to its data member `_buf`. -/
structure base where
  _buf : DetachedBuffer
deriving DecidableEq, Repr

/-- Constructor `base(uint8_t* data, size_t size)`. -/
def base.of_data (data : List Byte) (size : Nat) : base :=
  ⟨⟨data, size⟩⟩

/-- Call `sb.sputn(s, n)` on a sink that holds `sb` and has room for `room`
more bytes: the number of bytes the sink accepted, which is what the call
returns, and the sink after the call. -/
def sputn_room (room : Nat) (sb s : List Byte) (n : Nat) : Nat × List Byte :=
  (min n room, sb ++ s.take (min n room))

/-- Member `base::serialize`, on a sink with room for `room` more bytes: the
returned `bool` and the sink after the call. `serialize_setup()` does nothing
in `base`. The result of `sputn`, a signed count, is compared with
`traits_type::eof()`, which is `-1`. -/
def base.serialize (self : base) (room : Nat) (sb : List Byte) : Bool × List Byte :=
  let r := sputn_room room sb self._buf.data self._buf.size
  (decide ((r.1 : Int) ≠ -1), r.2)

/-- Static member `base::deserialize`: the object returned and the source
after the call; `u` is the previous contents of the storage read into. -/
def base.deserialize (u : Nat → Byte) (sb : List Byte) : base × List Byte :=
  -- char buf[4]; sb.sgetn(buf, 4); uint32_t size = *((uint32_t*)&buf[0]);
  let r1 := sgetn sb 4
  let buf := store r1.1 (uninit u 4)
  let size := le_value buf
  -- uint8_t* tmp_buf = new uint8_t[size]; sb.sgetn((char*)tmp_buf, size);
  let r2 := sgetn r1.2 size
  let tmp_buf := store r2.1 (uninit u size)
  -- return std::make_shared<base>(tmp_buf, size);
  (base.of_data tmp_buf size, r2.2)

/-! ## Properties of every Value of a tree -/

mutual
/-- The property `P`, stated of the two fields of a Value, holds of the Value
and of every child Value reachable from it. -/
def pmt.all (P : Option base_buffer → Option (List (List Byte × pmt)) → Prop) : pmt → Prop
  | .mk s m =>
    P s m ∧
    (match m with
      | some entries => all_entries P entries
      | none => True)
/-- The property holds of every Value in the entries of a mapping, and of
every child Value reachable from them. -/
def all_entries (P : Option base_buffer → Option (List (List Byte × pmt)) → Prop) :
    List (List Byte × pmt) → Prop
  | [] => True
  | (_, v) :: rest => pmt.all P v ∧ all_entries P rest
end

/-- Count invariant at one Value: a Value in Map state holds exactly as many
entries as its header buffer records. -/
def count_matches (c : Codec) (s : Option base_buffer)
    (m : Option (List (List Byte × pmt))) : Prop :=
  ∀ b entries, s = some b → m = some entries → c.count b.raw = entries.length

/-- Count bound at one Value: a Value in Map state holds at most as many
entries as its header buffer records. -/
def count_bounds (c : Codec) (s : Option base_buffer)
    (m : Option (List (List Byte × pmt))) : Prop :=
  ∀ b entries, s = some b → m = some entries → entries.length ≤ c.count b.raw

/-- Tag and state agree at one Value: the mapping is present if and only if
the Value holds a buffer whose tag is `MapHeaderString`. -/
def state_matches_tag (c : Codec) (s : Option base_buffer)
    (m : Option (List (List Byte × pmt))) : Prop :=
  m.isSome = true ↔ ∃ b, s = some b ∧ c.data_type b.raw = Data.MapHeaderString

/-! ## Nested maps and the wire grammar -/

/-- The bytes of `d` maps nested in one another around the frame `leaf`: each
map is the block `header` followed by one entry with the key `key`. -/
def nested_frame (header leaf key : List Byte) : Nat → List Byte
  | 0 => leaf
  | d + 1 => header ++ map_entry_bytes key (nested_frame header leaf key d)

/-- The Value that stands for `nested_frame`: `d` Values in Map state nested in
one another around the Value over the block `leaf`, `hsize` and `lsize` being
the sizes recorded for the two blocks. -/
def nested_value (header : List Byte) (hsize : Nat) (leaf : List Byte) (lsize : Nat)
    (key : List Byte) : Nat → pmt
  | 0 => pmt.of_buffer (some ⟨leaf, lsize⟩)
  | d + 1 => .mk (some ⟨header, hsize⟩) (some [(key, nested_value header hsize leaf lsize key d)])

/-- The wire grammar of section 6, with the Value a frame stands for:
`wire_frame c depth F v` holds when `F` is a `Frame` whose block is not a map
header, or a `MapFrame`, a `Frame` whose block is a map header followed by as
many `MapEntry` items as the header declares, each holding a key and a nested
frame of the grammar; maps nest less than `depth` deep. -/
inductive wire_frame (c : Codec) : Nat → List Byte → pmt → Prop where
  | frame (depth : Nat) (p body : List Byte)
      (hp : p.length = 4) (hb : body.length = le_value p)
      (ht : c.data_type (p ++ body) ≠ Data.MapHeaderString) :
      wire_frame c (depth + 1) (p ++ body) (pmt.of_buffer (some ⟨p ++ body, le_value p⟩))
  | map_frame (depth : Nat) (p body : List Byte) (es : List (List Byte × List Byte × pmt))
      (hp : p.length = 4) (hb : body.length = le_value p)
      (ht : c.data_type (p ++ body) = Data.MapHeaderString)
      (hcount : c.count (p ++ body) = es.length)
      (hkey : ∀ e ∈ es, e.1.length < 4294967296)
      (hes : ∀ e ∈ es, wire_frame c depth e.2.1 e.2.2) :
      wire_frame c (depth + 1) (p ++ (body ++ map_entries_bytes es))
        (.mk (some ⟨p ++ body, le_value p⟩)
          (some (es.foldl (fun m e => map_assign e.1 e.2.2 m) [])))

/-- A codec with a wide count: byte 4 of the block is the tag, bytes 5 to 8
are the count, a little-endian `uint32`. -/
def wide_codec : Codec where
  data_type := fun p => Data.of_code ((p.getD 4 0).val)
  count := fun p => le_value ((p.drop 5).take 4)

/-! ## Lemmas -/

theorem uninit_length (u : Nat → Byte) (n : Nat) : (uninit u n).length = n := by
  simp [uninit]

theorem store_full (got dst : List Byte) (h : dst.length ≤ got.length) : store got dst = got := by
  simp [store, List.drop_eq_nil_of_le h]

theorem sgetn_append (a b : List Byte) (n : Nat) (h : a.length = n) :
    sgetn (a ++ b) n = (a, b) := by
  subst h
  simp [sgetn]

theorem read_block_frame (u : Nat → Byte) (p body rest : List Byte)
    (hp : p.length = 4) (hb : body.length = le_value p) :
    read_block u (p ++ (body ++ rest)) = (⟨p ++ body, le_value p⟩, p, rest) := by
  have h1 : store p (uninit u 4) = p := store_full _ _ (by simp [uninit_length, hp])
  have h2 : store p (uninit u (le_value p + 4)) = p ++ (uninit u (le_value p + 4)).drop 4 := by
    simp [store, hp]
  have h3 : store body ((uninit u (le_value p + 4)).drop 4) = body :=
    store_full _ _ (by simp [uninit_length, hb])
  simp only [read_block, sgetn_append p (body ++ rest) 4 hp, h1, h2,
    sgetn_append body rest (le_value p) hb]
  simp [hp, h3]

theorem le_value_u32_bytes (n : Nat) : le_value (u32_bytes n) = n % 4294967296 := by
  simp [le_value, u32_bytes, Fin.ofNat]
  omega

theorem deserialize_frame_no_map (c : Codec) (u : Nat → Byte) (depth : Nat)
    (p body rest : List Byte) (hp : p.length = 4) (hb : body.length = le_value p)
    (ht : c.data_type (p ++ body) ≠ Data.MapHeaderString) :
    pmt.deserialize c u (depth + 1) (p ++ (body ++ rest)) =
      some (.ok (pmt.of_buffer (some ⟨p ++ body, le_value p⟩), rest)) := by
  simp [pmt.deserialize, read_block_frame u p body rest hp hb, pmt.data_type, pmt.of_buffer,
    pmt._scalar, base_buffer.data_type, ht]

theorem serialize_no_map (past : List Byte → Nat → Byte) (b : base_buffer) (sb : List Byte) :
    pmt.serialize past (.mk (some b) none) sb = .ok (b.size, sb ++ b.raw.take b.size) := by
  simp [pmt.serialize, sputn]

theorem deserialize_entries_no_fault
    (child : List Byte → Option (Except Fault (pmt × List Byte)))
    (hchild : ∀ sb e, child sb ≠ some (.error e)) :
    ∀ (count : Nat) (size data : List Byte) (m : List (List Byte × pmt)) (sb : List Byte)
      (e : Fault), deserialize_entries child count size data m sb ≠ some (.error e) := by
  intro count
  induction count with
  | zero => intro size data m sb e; simp [deserialize_entries]
  | succ n ih =>
    intro size data m sb e
    simp only [deserialize_entries]
    split
    · simp
    · rename_i e1 h
      exact absurd h (hchild _ _)
    · exact ih _ _ _ _ _

theorem deserialize_no_fault (c : Codec) (u : Nat → Byte) :
    ∀ (depth : Nat) (sb : List Byte) (e : Fault),
      pmt.deserialize c u depth sb ≠ some (.error e) := by
  intro depth
  induction depth with
  | zero => intro sb e; simp [pmt.deserialize]
  | succ d ih =>
    intro sb e
    simp only [pmt.deserialize, pmt.data_type, pmt.of_buffer, pmt._scalar]
    split
    · split
      · simp
      · rename_i e1 h
        exact absurd h (deserialize_entries_no_fault _ ih _ _ _ _ _ _)
      · simp
    · simp

theorem deserialize_no_map (c : Codec) (u : Nat → Byte) (depth : Nat) (sb : List Byte)
    (ht : c.data_type (read_block u sb).1.raw ≠ Data.MapHeaderString) :
    pmt.deserialize c u (depth + 1) sb =
      some (.ok (pmt.of_buffer (some (read_block u sb).1), (read_block u sb).2.2)) := by
  simp [pmt.deserialize, pmt.data_type, pmt.of_buffer, pmt._scalar, base_buffer.data_type, ht]

theorem read_block_short (u : Nat → Byte) (p avail : List Byte)
    (hp : p.length = 4) (hk : avail.length < le_value p) :
    read_block u (p ++ avail) =
      (⟨p ++ avail ++ (uninit u (le_value p + 4)).drop (4 + avail.length), le_value p⟩, p, []) := by
  have h1 : store p (uninit u 4) = p := store_full _ _ (by simp [uninit_length, hp])
  have h2 : store p (uninit u (le_value p + 4)) = p ++ (uninit u (le_value p + 4)).drop 4 := by
    simp [store, hp]
  have h3 : sgetn avail (le_value p) = (avail, []) := by
    simp [sgetn, List.take_of_length_le (Nat.le_of_lt hk), List.drop_eq_nil_of_le (Nat.le_of_lt hk)]
  simp only [read_block, sgetn_append p avail 4 hp, h1, h2, h3]
  simp [hp, store, List.drop_drop, Nat.add_comm]

theorem read_block_shorter (u : Nat → Byte) (sb : List Byte) (hk : sb.length < 4) :
    read_block u sb =
      (⟨sb ++ (uninit u 4).drop sb.length ++
          (uninit u (le_value (sb ++ (uninit u 4).drop sb.length) + 4)).drop 4,
        le_value (sb ++ (uninit u 4).drop sb.length)⟩,
       sb ++ (uninit u 4).drop sb.length, []) := by
  have h0 : sgetn sb 4 = (sb, []) := by
    simp [sgetn, List.take_of_length_le (Nat.le_of_lt hk), List.drop_eq_nil_of_le (Nat.le_of_lt hk)]
  have hl : (sb ++ (uninit u 4).drop sb.length).length = 4 := by
    simp [uninit_length]; omega
  simp only [read_block, h0, store]
  simp [sgetn, hl, List.take_append_of_le_length, List.take_of_length_le]

theorem resize_length (data : List Byte) (n : Nat) : (resize data n).length = n := by
  simp [resize]; omega

theorem u32_bytes_length (n : Nat) : (u32_bytes n).length = 4 := by
  simp [u32_bytes]

theorem map_find_assign_same {α : Type} (k : List Byte) (v : α) (m : List (List Byte × α)) :
    map_find k (map_assign k v m) = some v := by
  induction m with
  | nil => simp [map_assign, map_find]
  | cons hd tl ih =>
    obtain ⟨k1, v1⟩ := hd
    simp only [map_assign]
    split
    · simp [map_find]
    · split
      · simp [map_find]
      · rename_i h1 h2
        simp [map_find, h2, ih]

theorem map_find_assign_other {α : Type} (k k2 : List Byte) (v : α) (m : List (List Byte × α))
    (h : k2 ≠ k) : map_find k2 (map_assign k v m) = map_find k2 m := by
  induction m with
  | nil => simp [map_assign, map_find, h]
  | cons hd tl ih =>
    obtain ⟨k1, v1⟩ := hd
    simp only [map_assign]
    split
    · simp [map_find, h]
    · split
      · rename_i h1 h2
        subst h2
        simp [map_find, h]
      · simp [map_find, ih]

theorem map_find_foldl (k : List Byte) (es : List (List Byte × List Byte × pmt)) :
    ∀ m : List (List Byte × pmt),
      map_find k (es.foldl (fun m e => map_assign e.1 e.2.2 m) m) =
        match last_bound k es with
        | some v => some v
        | none => map_find k m := by
  induction es with
  | nil => intro m; simp [last_bound]
  | cons e rest ih =>
    intro m
    simp only [List.foldl_cons, last_bound]
    rw [ih]
    cases hl : last_bound k rest with
    | some v => simp
    | none =>
      by_cases hk : k = e.1
      · subst hk
        simp [map_find_assign_same]
      · simp [hk, map_find_assign_other _ _ _ _ hk]

theorem deserialize_entries_frames
    (child : List Byte → Option (Except Fault (pmt × List Byte)))
    (es : List (List Byte × List Byte × pmt)) :
    ∀ (size data : List Byte) (m : List (List Byte × pmt)) (rest : List Byte),
      size.length = 4 →
      (∀ e ∈ es, e.1.length < 4294967296) →
      (∀ e ∈ es, ∀ rest, child (e.2.1 ++ rest) = some (.ok (e.2.2, rest))) →
      deserialize_entries child es.length size data m (map_entries_bytes es ++ rest) =
        some (.ok (es.foldl (fun m e => map_assign e.1 e.2.2 m) m, rest)) := by
  induction es with
  | nil => intro size data m rest _ _ _; simp [deserialize_entries, map_entries_bytes]
  | cons e tl ih =>
    intro size data m rest hsize hkey hdec
    have hk : e.1.length < 4294967296 := hkey e (List.mem_cons_self _ _)
    have hlen : le_value (u32_bytes e.1.length) = e.1.length := by
      rw [le_value_u32_bytes]; exact Nat.mod_eq_of_lt hk
    have h1 : sgetn (map_entries_bytes (e :: tl) ++ rest) 4 =
        (u32_bytes e.1.length, e.1 ++ (e.2.1 ++ (map_entries_bytes tl ++ rest))) := by
      have := sgetn_append (u32_bytes e.1.length)
        (e.1 ++ (e.2.1 ++ (map_entries_bytes tl ++ rest))) 4 (u32_bytes_length _)
      simpa [map_entries_bytes, map_entry_bytes, List.append_assoc] using this
    have h2 : store (u32_bytes e.1.length) size = u32_bytes e.1.length :=
      store_full _ _ (by simp [u32_bytes_length, hsize])
    have h3 : sgetn (e.1 ++ (e.2.1 ++ (map_entries_bytes tl ++ rest))) e.1.length =
        (e.1, e.2.1 ++ (map_entries_bytes tl ++ rest)) := sgetn_append _ _ _ rfl
    have h4 : store e.1 (resize data e.1.length) = e.1 :=
      store_full _ _ (by simp [resize_length])
    simp only [List.length_cons, deserialize_entries, h1, h2, hlen, h3, h4,
      hdec e (List.mem_cons_self _ _) (map_entries_bytes tl ++ rest), List.foldl_cons]
    exact ih _ _ _ _ (u32_bytes_length _)
      (fun e1 he1 => hkey e1 (List.mem_cons_of_mem _ he1))
      (fun e1 he1 => hdec e1 (List.mem_cons_of_mem _ he1))

theorem put_append (a b : String) (r : String × Option Fault) :
    put (a ++ b) r = ((a ++ (put b r).1), (put b r).2) := by
  simp [put, String.append_assoc]

mutual
theorem operator_shl_pmt_append (c : Codec) (F : Formatters) :
    ∀ (v : pmt) (a b : String),
      operator_shl_pmt c F v (a ++ b) =
        (a ++ (operator_shl_pmt c F v b).1, (operator_shl_pmt c F v b).2)
  | .mk s m, a, b => by
    cases m with
    | none =>
      simp only [operator_shl_pmt]
      split
      · rfl
      · split <;> simp [put, String.append_assoc]
    | some entries =>
      have ih := operator_shl_entries_append c F entries true a (b ++ "\x7b ")
      simp only [operator_shl_pmt]
      split
      · rfl
      · split
        · simp [put, String.append_assoc]
        · simp [put, String.append_assoc]
        · rw [String.append_assoc, ih]
          cases h : operator_shl_entries c F entries true (b ++ "\x7b ") with
          | mk t f => cases f <;> simp [String.append_assoc]
        · rfl
theorem operator_shl_entries_append (c : Codec) (F : Formatters) :
    ∀ (es : List (List Byte × pmt)) (first : Bool) (a b : String),
      operator_shl_entries c F es first (a ++ b) =
        (a ++ (operator_shl_entries c F es first b).1, (operator_shl_entries c F es first b).2)
  | [], first, a, b => by simp [operator_shl_entries]
  | (k, v) :: rest, first, a, b => by
    have h1 : ∀ x : String, operator_shl_pmt c F v (a ++ x) =
        (a ++ (operator_shl_pmt c F v x).1, (operator_shl_pmt c F v x).2) :=
      fun x => operator_shl_pmt_append c F v a x
    have h2 := fun x => operator_shl_entries_append c F rest false a x
    cases first with
    | true =>
      simp only [operator_shl_entries, Bool.not_true, Bool.false_eq_true, if_false,
        String.append_assoc, h1]
      cases h : operator_shl_pmt c F v (b ++ (key_text k ++ ": ")) with
      | mk t f => cases f <;> simp [h2]
    | false =>
      simp only [operator_shl_entries, Bool.not_false, if_true, String.append_assoc, h1]
      cases h : operator_shl_pmt c F v (b ++ (", " ++ (key_text k ++ ": "))) with
      | mk t f => cases f <;> simp [h2]
end

theorem operator_shl_pmt_format (c : Codec) (F : Formatters) (v : pmt) (os : String) :
    operator_shl_pmt c F v os = (os ++ (format c F v).1, (format c F v).2) := by
  have h := operator_shl_pmt_append c F v os ""
  simpa [format] using h

theorem intercalate_go_append (s a b : String) (l : List String) :
    String.intercalate.go (a ++ b) s l = a ++ String.intercalate.go b s l := by
  induction l generalizing b with
  | nil => simp [String.intercalate.go]
  | cons x xs ih =>
    simp only [String.intercalate.go]
    rw [String.append_assoc, String.append_assoc, ih, String.append_assoc]

theorem operator_shl_entries_rest (c : Codec) (F : Formatters) (es : List (List Byte × pmt))
    (h : ∀ e ∈ es, (format c F e.2).2 = none) (os : String) :
    operator_shl_entries c F es false os =
      (String.intercalate.go os ", "
        (es.map fun e => key_text e.1 ++ ": " ++ (format c F e.2).1), none) := by
  induction es generalizing os with
  | nil => simp [operator_shl_entries, String.intercalate.go]
  | cons e tl ih =>
    obtain ⟨k, v⟩ := e
    have hv : (format c F v).2 = none := h (k, v) (List.mem_cons_self _ _)
    simp only [operator_shl_entries, Bool.not_false, if_true, List.map_cons,
      String.intercalate.go]
    rw [operator_shl_pmt_format, hv]
    simp only []
    rw [ih (fun e he => h e (List.mem_cons_of_mem _ he))]
    simp [String.append_assoc]

theorem switch_case_none_of_not_supported (t : Data) (h : ¬ t.supported) :
    switch_case t = none := by
  cases t <;> first
    | rfl
    | (exfalso; apply h; first
        | exact Or.inr (Or.inr rfl)
        | exact Or.inl ⟨.float, rfl⟩ | exact Or.inl ⟨.double, rfl⟩
        | exact Or.inl ⟨.complex_float, rfl⟩ | exact Or.inl ⟨.complex_double, rfl⟩
        | exact Or.inl ⟨.int8_t, rfl⟩ | exact Or.inl ⟨.int16_t, rfl⟩
        | exact Or.inl ⟨.int32_t, rfl⟩ | exact Or.inl ⟨.int64_t, rfl⟩
        | exact Or.inl ⟨.uint8_t, rfl⟩ | exact Or.inl ⟨.uint16_t, rfl⟩
        | exact Or.inl ⟨.uint32_t, rfl⟩ | exact Or.inl ⟨.uint64_t, rfl⟩
        | exact Or.inr (Or.inl ⟨.float, rfl⟩) | exact Or.inr (Or.inl ⟨.double, rfl⟩)
        | exact Or.inr (Or.inl ⟨.complex_float, rfl⟩)
        | exact Or.inr (Or.inl ⟨.complex_double, rfl⟩)
        | exact Or.inr (Or.inl ⟨.int8_t, rfl⟩) | exact Or.inr (Or.inl ⟨.int16_t, rfl⟩)
        | exact Or.inr (Or.inl ⟨.int32_t, rfl⟩) | exact Or.inr (Or.inl ⟨.int64_t, rfl⟩)
        | exact Or.inr (Or.inl ⟨.uint8_t, rfl⟩) | exact Or.inr (Or.inl ⟨.uint16_t, rfl⟩)
        | exact Or.inr (Or.inl ⟨.uint32_t, rfl⟩) | exact Or.inr (Or.inl ⟨.uint64_t, rfl⟩))

theorem switch_case_scalar (T : Elem) : switch_case (Data.Scalar T) = some (.scalar T) := by
  cases T <;> rfl

theorem switch_case_vector (T : Elem) : switch_case (Data.Vector T) = some (.vector T) := by
  cases T <;> rfl

theorem switch_case_some_iff (t : Data) : (∃ f, switch_case t = some f) ↔ t.supported := by
  constructor
  · rintro ⟨f, hf⟩
    by_contra hn
    rw [switch_case_none_of_not_supported t hn] at hf
    cases hf
  · rintro (⟨T, rfl⟩ | ⟨T, rfl⟩ | rfl)
    · exact ⟨_, switch_case_scalar T⟩
    · exact ⟨_, switch_case_vector T⟩
    · exact ⟨_, rfl⟩

theorem operator_shl_pmt_tag (c : Codec) (F : Formatters) (b : base_buffer)
    (m : Option (List (List Byte × pmt))) (os : String) :
    operator_shl_pmt c F (.mk (some b) m) os =
      match switch_case (c.data_type b.raw) with
      | some (.scalar T) => put os (F.scalar T (.mk (some b) m))
      | some (.vector T) => put os (F.vector T (.mk (some b) m))
      | some .map =>
        match m with
        | none => (os, some .null_dereference)
        | some entries => operator_shl_map c F entries os
      | none => (os, some (.runtime_error "Cannot convert non scalar pmt.")) := by
  cases m <;>
    simp only [operator_shl_pmt, pmt.data_type, pmt._scalar, base_buffer.data_type,
      operator_shl_map]

theorem deserialize_scalar_field (c : Codec) (u : Nat → Byte) (depth : Nat) (sb : List Byte)
    (r : pmt) (rest : List Byte) (h : pmt.deserialize c u depth sb = some (.ok (r, rest))) :
    r._scalar = some (read_block u sb).1 := by
  cases depth with
  | zero => simp [pmt.deserialize] at h
  | succ d =>
    simp only [pmt.deserialize, pmt.data_type, pmt.of_buffer, pmt._scalar] at h
    split at h
    · split at h
      · cases h
      · cases h
      · cases h
        rfl
    · cases h
      rfl

theorem read_block_raw_head (u : Nat → Byte) (b : Byte) (sb : List Byte) :
    (read_block u (b :: sb)).1.raw.head? = some b := by
  simp [read_block, sgetn, store]

theorem serialize_sample_map (past : List Byte → Nat → Byte) :
    pmt.serialize past sample_map [] =
      .ok (6, [2, 0, 0, 0, 25, 1, 1, 0, 0, 0, 97, 0, past [97] 0, past [97] 1, past [97] 2,
        5, 0, 0, 0, 7, 1, 2, 3, 4]) :=
  rfl

theorem roundtrip_sample_map_child (past : List Byte → Nat → Byte) (u : Nat → Byte)
    (depth : Nat) (r : pmt) (rest : List Byte) (entries : List (List Byte × pmt)) (child : pmt)
    (hd : pmt.deserialize sample_codec u depth
      [2, 0, 0, 0, 25, 1, 1, 0, 0, 0, 97, 0, past [97] 0, past [97] 1, past [97] 2,
        5, 0, 0, 0, 7, 1, 2, 3, 4] = some (.ok (r, rest)))
    (hm : r._map = some entries) (hf : map_find [97] entries = some child) :
    (child._scalar.bind fun b => b.raw.head?) = some 0 := by
  cases depth with
  | zero => simp [pmt.deserialize] at hd
  | succ d =>
    have hblk : read_block u [2, 0, 0, 0, 25, 1, 1, 0, 0, 0, 97, 0, past [97] 0, past [97] 1,
        past [97] 2, 5, 0, 0, 0, 7, 1, 2, 3, 4] =
        (⟨[2, 0, 0, 0, 25, 1], 2⟩, [2, 0, 0, 0], [1, 0, 0, 0, 97, 0, past [97] 0, past [97] 1,
          past [97] 2, 5, 0, 0, 0, 7, 1, 2, 3, 4]) :=
      read_block_frame u [2, 0, 0, 0] [25, 1] [1, 0, 0, 0, 97, 0, past [97] 0, past [97] 1,
          past [97] 2, 5, 0, 0, 0, 7, 1, 2, 3, 4] rfl rfl
    simp only [pmt.deserialize, hblk, pmt.data_type, pmt.of_buffer, pmt._scalar,
      base_buffer.data_type] at hd
    have ht : sample_codec.data_type [2, 0, 0, 0, 25, 1] = Data.MapHeaderString := rfl
    have hc : sample_codec.count [2, 0, 0, 0, 25, 1] = 1 := rfl
    rw [ht, hc] at hd
    simp only [if_true, deserialize_entries] at hd
    have h1 : sgetn [1, 0, 0, 0, 97, 0, past [97] 0, past [97] 1,
          past [97] 2, 5, 0, 0, 0, 7, 1, 2, 3, 4] 4
        = ([1, 0, 0, 0], [97, 0, past [97] 0, past [97] 1, past [97] 2,
            5, 0, 0, 0, 7, 1, 2, 3, 4]) := rfl
    rw [h1] at hd
    have h2 : store [1, 0, 0, 0] [2, 0, 0, 0] = ([1, 0, 0, 0] : List Byte) := rfl
    have h3 : le_value [1, 0, 0, 0] = 1 := rfl
    simp only [h2, h3] at hd
    have h4 : sgetn [97, 0, past [97] 0, past [97] 1, past [97] 2,
            5, 0, 0, 0, 7, 1, 2, 3, 4] 1
        = ([97], [0, past [97] 0, past [97] 1, past [97] 2, 5, 0, 0, 0, 7, 1, 2, 3, 4]) := rfl
    have h5 : store [97] (resize [] 1) = ([97] : List Byte) := rfl
    simp only [h4, h5] at hd
    cases hch : pmt.deserialize sample_codec u d
        [0, past [97] 0, past [97] 1, past [97] 2, 5, 0, 0, 0, 7, 1, 2, 3, 4] with
    | none => simp [hch] at hd
    | some res =>
      cases res with
      | error e => simp [hch] at hd
      | ok vr =>
        obtain ⟨v, sb2⟩ := vr
        simp only [hch, map_assign] at hd
        cases hd
        simp only [pmt._map, Option.some.injEq] at hm
        subst hm
        simp only [map_find, if_true, Option.some.injEq] at hf
        subst hf
        rw [deserialize_scalar_field _ _ _ _ _ _ hch]
        simp [read_block_raw_head]

theorem mem_map_assign {α : Type} (k : List Byte) (v : α) (m : List (List Byte × α))
    (e : List Byte × α) (he : e ∈ map_assign k v m) : e = (k, v) ∨ e ∈ m := by
  induction m with
  | nil => simpa [map_assign] using he
  | cons hd tl ih =>
    obtain ⟨k1, v1⟩ := hd
    simp only [map_assign] at he
    split at he
    · simpa using he
    · split at he
      · rcases List.mem_cons.mp he with h | h
        · exact Or.inl h
        · exact Or.inr (List.mem_cons_of_mem _ h)
      · rcases List.mem_cons.mp he with h | h
        · exact Or.inr (h ▸ List.mem_cons_self _ _)
        · rcases ih h with h2 | h2
          · exact Or.inl h2
          · exact Or.inr (List.mem_cons_of_mem _ h2)

theorem map_assign_ascending {α : Type} (k : List Byte) (v : α) (m : List (List Byte × α))
    (hm : m.Pairwise fun a b => a.1 < b.1) :
    (map_assign k v m).Pairwise fun a b => a.1 < b.1 := by
  induction m with
  | nil => simp [map_assign]
  | cons hd tl ih =>
    obtain ⟨k1, v1⟩ := hd
    rw [List.pairwise_cons] at hm
    obtain ⟨hhd, htl⟩ := hm
    simp only [map_assign]
    split
    · rename_i hlt
      refine List.pairwise_cons.mpr ⟨?_, List.pairwise_cons.mpr ⟨hhd, htl⟩⟩
      intro e he
      rcases List.mem_cons.mp he with h | h
      · rw [h]; exact hlt
      · exact lt_trans hlt (hhd e h)
    · split
      · rename_i hlt heq
        subst heq
        exact List.pairwise_cons.mpr ⟨hhd, htl⟩
      · rename_i hlt hne
        have hgt : k1 < k := by
          rcases lt_trichotomy k k1 with h | h | h
          · exact absurd h hlt
          · exact absurd h hne
          · exact h
        refine List.pairwise_cons.mpr ⟨?_, ih htl⟩
        intro e he
        rcases mem_map_assign k v tl e he with h | h
        · rw [h]; exact hgt
        · exact hhd e h

theorem foldl_map_assign_ascending (es : List (List Byte × List Byte × pmt)) :
    ∀ m : List (List Byte × pmt), (m.Pairwise fun a b => a.1 < b.1) →
      (es.foldl (fun m e => map_assign e.1 e.2.2 m) m).Pairwise fun a b => a.1 < b.1 := by
  induction es with
  | nil => intro m hm; simpa using hm
  | cons e tl ih =>
    intro m hm
    simp only [List.foldl_cons]
    exact ih _ (map_assign_ascending _ _ _ hm)

theorem base_deserialize_frame (u : Nat → Byte) (p b rest : List Byte)
    (hp : p.length = 4) (hb : b.length = le_value p) :
    base.deserialize u (p ++ (b ++ rest)) = (base.of_data b (le_value p), rest) := by
  have h1 : store p (uninit u 4) = p := store_full _ _ (by simp [uninit_length, hp])
  have h2 : store b (uninit u (le_value p)) = b := store_full _ _ (by simp [uninit_length, hb])
  simp only [base.deserialize, sgetn_append p (b ++ rest) 4 hp, h1,
    sgetn_append b rest (le_value p) hb, h2]

theorem all_entries_iff (P : Option base_buffer → Option (List (List Byte × pmt)) → Prop)
    (es : List (List Byte × pmt)) :
    all_entries P es ↔ ∀ e ∈ es, pmt.all P e.2 := by
  induction es with
  | nil => simp [all_entries]
  | cons hd tl ih =>
    obtain ⟨k, v⟩ := hd
    simp only [all_entries, ih, List.mem_cons, forall_eq_or_imp]

theorem pmt_all_mk (P : Option base_buffer → Option (List (List Byte × pmt)) → Prop)
    (s : Option base_buffer) (m : Option (List (List Byte × pmt))) :
    pmt.all P (.mk s m) ↔ P s m ∧ ∀ es, m = some es → ∀ e ∈ es, pmt.all P e.2 := by
  cases m with
  | none => simp [pmt.all]
  | some es => simp [pmt.all, all_entries_iff]

theorem length_map_assign_le {α : Type} (k : List Byte) (v : α) (m : List (List Byte × α)) :
    (map_assign k v m).length ≤ m.length + 1 := by
  induction m with
  | nil => simp [map_assign]
  | cons hd tl ih =>
    obtain ⟨k1, v1⟩ := hd
    simp only [map_assign]
    split
    · simp
    · split
      · simp
      · simp only [List.length_cons]
        omega

theorem deserialize_entries_post (Q : pmt → Prop)
    (child : List Byte → Option (Except Fault (pmt × List Byte)))
    (hchild : ∀ sb v rest, child sb = some (.ok (v, rest)) → Q v) :
    ∀ (count : Nat) (size data : List Byte) (m : List (List Byte × pmt)) (sb : List Byte)
      (m2 : List (List Byte × pmt)) (rest : List Byte),
      (∀ e ∈ m, Q e.2) →
      deserialize_entries child count size data m sb = some (.ok (m2, rest)) →
      (∀ e ∈ m2, Q e.2) ∧ m2.length ≤ m.length + count := by
  intro count
  induction count with
  | zero =>
    intro size data m sb m2 rest hm h
    simp only [deserialize_entries, Option.some.injEq, Except.ok.injEq, Prod.mk.injEq] at h
    obtain ⟨rfl, _⟩ := h
    exact ⟨hm, by omega⟩
  | succ n ih =>
    intro size data m sb m2 rest hm h
    simp only [deserialize_entries] at h
    split at h
    · cases h
    · cases h
    · rename_i v sb2 hc
      have hv : Q v := hchild _ _ _ hc
      have hm2 : ∀ e ∈ map_assign (store (sgetn (sgetn sb 4).2 (le_value (store (sgetn sb 4).1
          size))).1 (resize data (le_value (store (sgetn sb 4).1 size)))) v m, Q e.2 := by
        intro e he
        rcases mem_map_assign _ _ _ _ he with h1 | h1
        · rw [h1]; exact hv
        · exact hm e h1
      have := ih _ _ _ _ _ _ hm2 h
      refine ⟨this.1, ?_⟩
      have hl := length_map_assign_le (store (sgetn (sgetn sb 4).2 (le_value (store (sgetn sb 4).1
          size))).1 (resize data (le_value (store (sgetn sb 4).1 size)))) v m
      omega

theorem deserialize_all (c : Codec) (u : Nat → Byte)
    (P : Option base_buffer → Option (List (List Byte × pmt)) → Prop)
    (hleaf : ∀ b, c.data_type b.raw ≠ Data.MapHeaderString → P (some b) none)
    (hnode : ∀ b m, c.data_type b.raw = Data.MapHeaderString → m.length ≤ c.count b.raw →
      P (some b) (some m)) :
    ∀ (depth : Nat) (sb : List Byte) (r : pmt) (rest : List Byte),
      pmt.deserialize c u depth sb = some (.ok (r, rest)) → pmt.all P r := by
  intro depth
  induction depth with
  | zero => intro sb r rest h; simp [pmt.deserialize] at h
  | succ d ih =>
    intro sb r rest h
    simp only [pmt.deserialize, pmt.data_type, pmt.of_buffer, pmt._scalar,
      base_buffer.data_type] at h
    split at h
    · rename_i ht
      split at h
      · cases h
      · cases h
      · rename_i m sb2 hloop
        cases h
        have hpost := deserialize_entries_post (pmt.all P) (pmt.deserialize c u d)
          (fun sb v rest hc => ih sb v rest hc) _ _ _ _ _ _ _ (by simp) hloop
        rw [pmt_all_mk]
        refine ⟨hnode _ _ ht (by simpa using hpost.2), ?_⟩
        intro es hes
        cases hes
        exact hpost.1
    · rename_i ht
      cases h
      rw [pmt_all_mk]
      exact ⟨hleaf _ ht, by simp⟩

theorem map_find_isSome_iff {α : Type} (k : List Byte) (m : List (List Byte × α)) :
    (map_find k m).isSome = true ↔ k ∈ m.map Prod.fst := by
  induction m with
  | nil => simp [map_find]
  | cons hd tl ih =>
    obtain ⟨k1, v1⟩ := hd
    simp only [map_find, List.map_cons, List.mem_cons]
    by_cases h : k = k1
    · simp [h]
    · simp [h, ih]

theorem last_bound_isSome_iff (k : List Byte) (es : List (List Byte × List Byte × pmt)) :
    (last_bound k es).isSome = true ↔ k ∈ es.map (fun e => e.1) := by
  induction es with
  | nil => simp [last_bound]
  | cons e tl ih =>
    simp only [last_bound, List.map_cons, List.mem_cons]
    cases hl : last_bound k tl with
    | some v =>
      have : k ∈ tl.map (fun e => e.1) := ih.mp (by simp [hl])
      simp [this]
    | none =>
      have : ¬ k ∈ tl.map (fun e => e.1) := fun hmem => by
        have := ih.mpr hmem
        simp [hl] at this
      by_cases hk : k = e.1
      · simp [hk]
      · simp [hk, this]

theorem foldl_map_assign_length (es : List (List Byte × List Byte × pmt)) :
    (es.foldl (fun m e => map_assign e.1 e.2.2 m) []).length =
      (es.map (fun e => e.1)).dedup.length := by
  have hasc := foldl_map_assign_ascending es [] List.Pairwise.nil
  have hnd : ((es.foldl (fun m e => map_assign e.1 e.2.2 m) []).map Prod.fst).Nodup := by
    rw [List.Nodup, List.pairwise_map]
    exact hasc.imp (fun h => ne_of_lt h)
  have hperm : ((es.foldl (fun m e => map_assign e.1 e.2.2 m) []).map Prod.fst).Perm
      (es.map (fun e => e.1)).dedup := by
    rw [List.perm_ext_iff_of_nodup hnd (List.nodup_dedup _)]
    intro k
    rw [List.mem_dedup, ← map_find_isSome_iff, ← last_bound_isSome_iff, map_find_foldl]
    cases last_bound k es <;> simp [map_find]
  have := hperm.length_eq
  simpa using this

theorem deserialize_map_frame (c : Codec) (u : Nat → Byte) (depth : Nat)
    (p body : List Byte) (es : List (List Byte × List Byte × pmt)) (rest : List Byte)
    (hp : p.length = 4) (hb : body.length = le_value p)
    (htag : c.data_type (p ++ body) = Data.MapHeaderString)
    (hcount : c.count (p ++ body) = es.length)
    (hkey : ∀ e ∈ es, e.1.length < 4294967296)
    (hdec : ∀ e ∈ es, decodes c u depth e.2.1 e.2.2) :
    pmt.deserialize c u (depth + 1) (p ++ (body ++ (map_entries_bytes es ++ rest))) =
      some (.ok (.mk (some ⟨p ++ body, le_value p⟩)
        (some (es.foldl (fun m e => map_assign e.1 e.2.2 m) [])), rest)) := by
  have h := deserialize_entries_frames (pmt.deserialize c u depth) es p [] [] rest hp hkey hdec
  simp [pmt.deserialize, read_block_frame u p body _ hp hb, pmt.data_type, pmt.of_buffer,
    pmt._scalar, base_buffer.data_type, htag, hcount, h]

theorem read_block_nil (u : Nat → Byte) : (read_block u []).2.2 = [] := by
  simp [read_block, sgetn]

theorem resize_self (data : List Byte) (n : Nat) (h : data.length = n) : resize data n = data := by
  subst h
  simp [resize]

theorem deserialize_entries_exhausted
    (child : List Byte → Option (Except Fault (pmt × List Byte))) (J : pmt)
    (hchild : child [] = some (.ok (J, []))) (size K : List Byte)
    (hK : K.length = le_value size) :
    ∀ count, deserialize_entries child count size K [(K, J)] [] = some (.ok ([(K, J)], [])) := by
  intro count
  induction count with
  | zero => simp [deserialize_entries]
  | succ n ih =>
    have h1 : sgetn ([] : List Byte) 4 = ([], []) := rfl
    have h2 : store [] size = size := by simp [store]
    have h3 : sgetn ([] : List Byte) (le_value size) = ([], []) := by simp [sgetn]
    have h4 : store [] K = K := by simp [store]
    simp only [deserialize_entries, h1, h2, h3, resize_self K _ hK, h4, hchild, map_assign,
      lt_irrefl, if_false, if_true]
    exact ih

theorem deserialize_entries_exhausted_first
    (child : List Byte → Option (Except Fault (pmt × List Byte))) (J : pmt)
    (hchild : child [] = some (.ok (J, []))) (size : List Byte) (count : Nat) :
    deserialize_entries child count size [] [] [] =
      some (.ok (if count = 0 then [] else [(List.replicate (le_value size) 0, J)], [])) := by
  cases count with
  | zero => simp [deserialize_entries]
  | succ n =>
    have h1 : sgetn ([] : List Byte) 4 = ([], []) := rfl
    have h2 : store [] size = size := by simp [store]
    have h3 : sgetn ([] : List Byte) (le_value size) = ([], []) := by simp [sgetn]
    have h5 : resize [] (le_value size) = List.replicate (le_value size) 0 := by simp [resize]
    have h4 : store [] (List.replicate (le_value size) (0 : Byte)) =
        List.replicate (le_value size) 0 := by simp [store]
    simp only [deserialize_entries, h1, h2, h3, h5, h4, hchild, map_assign]
    rw [deserialize_entries_exhausted child J hchild size _ (by simp)]
    simp

theorem deserialize_map_step (c : Codec) (u : Nat → Byte) (d : Nat) (sb : List Byte)
    (ht : c.data_type (read_block u sb).1.raw = Data.MapHeaderString) :
    pmt.deserialize c u (d + 1) sb =
      match deserialize_entries (pmt.deserialize c u d) (c.count (read_block u sb).1.raw)
          (read_block u sb).2.1 [] [] (read_block u sb).2.2 with
      | none => none
      | some (.error e) => some (.error e)
      | some (.ok (m, sb2)) => some (.ok (.mk (some (read_block u sb).1) (some m), sb2)) := by
  simp [pmt.deserialize, pmt.data_type, pmt.of_buffer, pmt._scalar, base_buffer.data_type, ht]

theorem deserialize_entries_child_none
    (child : List Byte → Option (Except Fault (pmt × List Byte)))
    (count : Nat) (size data k frame rest : List Byte) (m : List (List Byte × pmt))
    (hsize : size.length = 4) (hk : k.length < 4294967296)
    (hchild : child (frame ++ rest) = none) :
    deserialize_entries child (count + 1) size data m (map_entry_bytes k frame ++ rest) = none := by
  have hlen : le_value (u32_bytes k.length) = k.length := by
    rw [le_value_u32_bytes]; exact Nat.mod_eq_of_lt hk
  have h1 : sgetn (map_entry_bytes k frame ++ rest) 4 =
      (u32_bytes k.length, k ++ (frame ++ rest)) := by
    have := sgetn_append (u32_bytes k.length) (k ++ (frame ++ rest)) 4 (u32_bytes_length _)
    simpa [map_entry_bytes, List.append_assoc] using this
  have h2 : store (u32_bytes k.length) size = u32_bytes k.length :=
    store_full _ _ (by simp [u32_bytes_length, hsize])
  have h3 : sgetn (k ++ (frame ++ rest)) k.length = (k, frame ++ rest) := sgetn_append _ _ _ rfl
  simp only [deserialize_entries, h1, h2, hlen, h3, hchild]

theorem deserialize_nested_none (c : Codec) (u : Nat → Byte)
    (hp hbody leaf key : List Byte)
    (hhp : hp.length = 4) (hhb : hbody.length = le_value hp)
    (hht : c.data_type (hp ++ hbody) = Data.MapHeaderString)
    (hhc : c.count (hp ++ hbody) = 1)
    (hkey : key.length < 4294967296) :
    ∀ (d bound : Nat) (rest : List Byte), bound ≤ d →
      pmt.deserialize c u bound (nested_frame (hp ++ hbody) leaf key d ++ rest) = none := by
  intro d
  induction d with
  | zero =>
    intro bound rest hle
    have : bound = 0 := by omega
    subst this
    simp [pmt.deserialize]
  | succ n ih =>
    intro bound rest hle
    cases bound with
    | zero => simp [pmt.deserialize]
    | succ b =>
      have hshape : nested_frame (hp ++ hbody) leaf key (n + 1) ++ rest =
          hp ++ (hbody ++ (map_entry_bytes key (nested_frame (hp ++ hbody) leaf key n) ++ rest)) := by
        simp [nested_frame, List.append_assoc]
      have hblk := read_block_frame u hp hbody
        (map_entry_bytes key (nested_frame (hp ++ hbody) leaf key n) ++ rest) hhp hhb
      rw [hshape, deserialize_map_step c u b _ (by rw [hblk]; exact hht), hblk]
      simp only [hhc]
      rw [deserialize_entries_child_none (pmt.deserialize c u b) 0 hp [] key _ rest [] hhp hkey
        (ih b rest (by omega))]

theorem deserialize_wire_frame (c : Codec) (u : Nat → Byte) (depth : Nat) (F : List Byte)
    (v : pmt) (h : wire_frame c depth F v) :
    ∀ rest, pmt.deserialize c u depth (F ++ rest) = some (.ok (v, rest)) := by
  induction h with
  | frame depth p body hp hb ht =>
    intro rest
    have h := deserialize_frame_no_map c u depth p body rest hp hb ht
    simpa [List.append_assoc] using h
  | map_frame depth p body es hp hb ht hcount hkey hes ih =>
    intro rest
    have h := deserialize_map_frame c u depth p body es rest hp hb ht hcount hkey
      (fun e he => ih e he)
    simpa [List.append_assoc] using h

/-! ## The claims -/

/-- Claim C1, amended. Scalar and vector round trip: let `v` be a Value built from
a buffer handle (so it has no mapping) whose buffer is a well-formed
size-prefixed block, a 4-byte prefix `p` followed by exactly `le_value p` bytes
`body`, with `size()` counting the prefix, and whose tag is not
`MapHeaderString`. Then `serialize` writes the block, and `deserialize`, run on
a source holding exactly the bytes written, returns (at every recursion bound
of at least one call) a Value without a mapping, with the tag of `v`, whose
block holds the bytes of the block of `v`; the source is left empty. -/
theorem roundtrip_scalar (c : Codec) (u : Nat → Byte) (past : List Byte → Nat → Byte)
    (depth : Nat) (b : base_buffer) (p body : List Byte)
    (hraw : b.raw = p ++ body) (hp : p.length = 4) (hbody : body.length = le_value p)
    (hsize : b.size = b.raw.length)
    (htag : b.data_type c ≠ Data.MapHeaderString) :
    ∃ n w r, pmt.serialize past (pmt.of_buffer (some b)) [] = .ok (n, w) ∧
      pmt.deserialize c u (depth + 1) w = some (.ok (r, [])) ∧
      r._map = none ∧
      r.data_type c = (pmt.of_buffer (some b)).data_type c ∧
      r._scalar.map base_buffer.raw = some b.raw := by
  refine ⟨b.size, b.raw, pmt.of_buffer (some ⟨p ++ body, le_value p⟩), ?_, ?_, ?_, ?_, ?_⟩
  · simp [pmt.of_buffer, serialize_no_map, hsize]
  · have h := deserialize_frame_no_map c u depth p body [] hp hbody
      (by simpa [base_buffer.data_type, hraw] using htag)
    simpa [hraw] using h
  · simp [pmt.of_buffer, pmt._map]
  · simp [pmt.of_buffer, pmt.data_type, pmt._scalar, base_buffer.data_type, hraw]
  · simp [pmt.of_buffer, pmt._scalar, hraw]

/-- Claim C1, witness: the amended round trip at the block `5 0 0 0 | 7 1 2 3 4`,
tagged `ScalarInt32` by `sample_codec`. -/
theorem roundtrip_scalar_witness :
    ∃ n w r, pmt.serialize zeros_past (pmt.of_buffer (some ⟨[5, 0, 0, 0, 7, 1, 2, 3, 4], 9⟩)) []
        = .ok (n, w) ∧
      pmt.deserialize sample_codec zeros (0 + 1) w = some (.ok (r, [])) ∧
      r._map = none ∧
      r.data_type sample_codec =
        (pmt.of_buffer (some ⟨[5, 0, 0, 0, 7, 1, 2, 3, 4], 9⟩)).data_type sample_codec ∧
      r._scalar.map base_buffer.raw = some [5, 0, 0, 0, 7, 1, 2, 3, 4] :=
  roundtrip_scalar sample_codec zeros zeros_past 0 ⟨[5, 0, 0, 0, 7, 1, 2, 3, 4], 9⟩
    [5, 0, 0, 0] [7, 1, 2, 3, 4] rfl rfl rfl rfl (by decide)

/-- Claim C1, counterexample: a Value built from a buffer handle is not empty and
has no mapping, whatever the tag of its buffer. For the six-byte block
`2 0 0 0 | 25 0` (tag `MapHeaderString`, count 0) `serialize` writes the block,
and `deserialize` on those bytes returns a Value in Map state (with an empty
mapping); at no recursion bound does it return a Value without a mapping. -/
theorem roundtrip_scalar_counterexample :
    pmt.serialize zeros_past (pmt.of_buffer (some ⟨[2, 0, 0, 0, 25, 0], 6⟩)) []
        = .ok (6, [2, 0, 0, 0, 25, 0]) ∧
      (pmt.of_buffer (some ⟨[2, 0, 0, 0, 25, 0], 6⟩))._map = none ∧
      pmt.deserialize sample_codec zeros 1 [2, 0, 0, 0, 25, 0]
        = some (.ok (.mk (some ⟨[2, 0, 0, 0, 25, 0], 2⟩) (some []), [])) ∧
      ¬ ∃ depth r rest, pmt.deserialize sample_codec zeros depth [2, 0, 0, 0, 25, 0]
          = some (.ok (r, rest)) ∧ r._map = none := by
  refine ⟨rfl, rfl, rfl, ?_⟩
  rintro ⟨depth, r, rest, h, hm⟩
  cases depth with
  | zero => simp [pmt.deserialize] at h
  | succ d =>
    have h2 : pmt.deserialize sample_codec zeros (d + 1) [2, 0, 0, 0, 25, 0]
        = some (.ok (.mk (some ⟨[2, 0, 0, 0, 25, 0], 2⟩) (some []), [])) := rfl
    rw [h2] at h
    cases h
    simp [pmt._map] at hm

/-- Claim C2, the code at the failing input: `sample_map` holds the one entry
`"a"` and its header records the count 1. `serialize` writes the key as five
bytes (`a`, the terminator and three bytes behind it), so that `deserialize` on
the bytes written takes the terminator and those three bytes for the size field
of the child. With zeros behind the key it returns a map whose entry `"a"` is a
Value over an empty block, and leaves the nine bytes of the child unread. And
whatever lies behind the key and in unwritten storage, at no recursion bound
does it return a map whose entry `"a"` is a Value over the block of the
child. -/
theorem roundtrip_map_one_entry :
    pmt.serialize zeros_past sample_map [] =
      .ok (6, [2, 0, 0, 0, 25, 1, 1, 0, 0, 0, 97, 0, 0, 0, 0, 5, 0, 0, 0, 7, 1, 2, 3, 4]) ∧
    pmt.deserialize sample_codec zeros 2
        [2, 0, 0, 0, 25, 1, 1, 0, 0, 0, 97, 0, 0, 0, 0, 5, 0, 0, 0, 7, 1, 2, 3, 4] =
      some (.ok (.mk (some ⟨[2, 0, 0, 0, 25, 1], 2⟩)
          (some [([97], pmt.of_buffer (some ⟨[0, 0, 0, 0], 0⟩))]),
        [5, 0, 0, 0, 7, 1, 2, 3, 4])) ∧
    ¬ ∃ (past : List Byte → Nat → Byte) (u : Nat → Byte) (depth n : Nat) (w : List Byte)
        (r : pmt) (rest : List Byte) (entries : List (List Byte × pmt)) (child : pmt),
      pmt.serialize past sample_map [] = .ok (n, w) ∧
      pmt.deserialize sample_codec u depth w = some (.ok (r, rest)) ∧
      r._map = some entries ∧ map_find [97] entries = some child ∧
      child._scalar.map base_buffer.raw = some [5, 0, 0, 0, 7, 1, 2, 3, 4] := by
  refine ⟨rfl, rfl, ?_⟩
  rintro ⟨past, u, depth, n, w, r, rest, entries, child, hs, hd, hm, hf, hc⟩
  rw [serialize_sample_map] at hs
  cases hs
  have h := roundtrip_sample_map_child past u depth r rest entries child hd hm hf
  cases hcs : child._scalar with
  | none => simp [hcs] at hc
  | some b =>
    simp only [hcs, Option.map_some', Option.some.injEq] at hc
    simp [hcs, hc] at h

/-- Claim C3, the code at the failing input: whatever lies in memory behind the
key, `serialize` writes for the entry `"a"` of `sample_map` the length field 1
and then five bytes, the character `a`, the terminator and three bytes that do
not belong to the key, before the bytes of the child; the wire format the
specification describes has the single byte `a` there. -/
theorem serialize_map_key_overrun (past : List Byte → Nat → Byte) :
    pmt.serialize past sample_map [] =
      .ok (6, [2, 0, 0, 0, 25, 1] ++ [1, 0, 0, 0] ++
        [97, 0, past [97] 0, past [97] 1, past [97] 2] ++ [5, 0, 0, 0, 7, 1, 2, 3, 4]) ∧
    wire_format sample_map =
      [2, 0, 0, 0, 25, 1] ++ [1, 0, 0, 0] ++ [97] ++ [5, 0, 0, 0, 7, 1, 2, 3, 4] :=
  ⟨rfl, rfl⟩

/-- Claim C4, the code at the failing input: on `sample_map`, `serialize` writes
24 bytes to an empty sink and returns 6, the size of the header buffer alone.
In general, on a Value that holds a buffer the call either ends in a fault or
returns the size of that buffer, whatever the entries written after it. -/
theorem serialize_map_returned_length (past : List Byte → Nat → Byte) (b : base_buffer)
    (m : Option (List (List Byte × pmt))) (sb : List Byte) :
    (pmt.serialize past sample_map []).map (fun r => (r.1, r.2.length)) = .ok (6, 24) ∧
    ((∃ e, pmt.serialize past (.mk (some b) m) sb = .error e) ∨
      ∃ w, pmt.serialize past (.mk (some b) m) sb = .ok (b.size, w)) := by
  refine ⟨rfl, ?_⟩
  cases m with
  | none => exact Or.inr ⟨_, serialize_no_map past b sb⟩
  | some entries =>
    simp only [pmt.serialize]
    cases serialize_entries past entries (sputn sb b.raw b.size) with
    | error e => exact Or.inl ⟨e, rfl⟩
    | ok w => exact Or.inr ⟨w, by simp⟩

/-- Claim C5, amended. `deserialize` does not check how many bytes a read
delivered and has no truncation failure. For every valid frame `p ++ body`
(`p` the 4-byte size field, `body` of the declared length) and every proper
prefix of it, cut after `k` bytes: `deserialize` ends in no fault, on this
source or any other, at any recursion bound; its two reads consume the whole
prefix; when the prefix still
holds the size field, the block it builds is the prefix followed by the previous
contents of the rest of the allocation, and the recorded size is the declared
one; when the cut is inside the size field, the size is read from the bytes
present followed by the previous contents of the rest of the local `size`, and
the block is that size field followed by the previous contents of the
allocation; and whenever the tag of the block does not read as
`MapHeaderString`, `deserialize` returns a Value over the block. -/
theorem deserialize_truncated (c : Codec) (u : Nat → Byte) (depth : Nat)
    (p body : List Byte) (k : Nat)
    (hp : p.length = 4) (hb : body.length = le_value p) (hk : k < (p ++ body).length) :
    (∀ sb e, pmt.deserialize c u depth sb ≠ some (.error e)) ∧
    (read_block u ((p ++ body).take k)).2.2 = [] ∧
    (4 ≤ k → (read_block u ((p ++ body).take k)).1 =
      ⟨(p ++ body).take k ++ (uninit u (le_value p + 4)).drop k, le_value p⟩) ∧
    (k < 4 → (read_block u ((p ++ body).take k)).1 =
      ⟨(p ++ body).take k ++ (uninit u 4).drop k ++
          (uninit u (le_value ((p ++ body).take k ++ (uninit u 4).drop k) + 4)).drop 4,
        le_value ((p ++ body).take k ++ (uninit u 4).drop k)⟩) ∧
    (c.data_type (read_block u ((p ++ body).take k)).1.raw ≠ Data.MapHeaderString →
      pmt.deserialize c u (depth + 1) ((p ++ body).take k) =
        some (.ok (pmt.of_buffer (some (read_block u ((p ++ body).take k)).1), []))) := by
  have hlen : ((p ++ body).take k).length = k := by
    rw [List.length_take]; omega
  have hshort : ¬ 4 ≤ k → read_block u ((p ++ body).take k) =
      (⟨(p ++ body).take k ++ (uninit u 4).drop k ++
          (uninit u (le_value ((p ++ body).take k ++ (uninit u 4).drop k) + 4)).drop 4,
        le_value ((p ++ body).take k ++ (uninit u 4).drop k)⟩,
       (p ++ body).take k ++ (uninit u 4).drop k, []) := by
    intro h4
    have h := read_block_shorter u ((p ++ body).take k) (by omega)
    rw [hlen] at h
    exact h
  have hlong : 4 ≤ k → read_block u ((p ++ body).take k) =
      (⟨(p ++ body).take k ++ (uninit u (le_value p + 4)).drop k, le_value p⟩, p, []) := by
    intro h4
    have ht : (p ++ body).take k = p ++ body.take (k - 4) := by
      rw [List.take_append_eq_append_take, hp, List.take_of_length_le (by omega)]
    have hl : (body.take (k - 4)).length < le_value p := by
      simp [List.length_take] at hk ⊢
      omega
    have h4k : 4 + (body.take (k - 4)).length = k := by
      simp [List.length_take] at hk ⊢
      omega
    rw [ht, read_block_short u p _ hp hl, h4k]
  have hcons : (read_block u ((p ++ body).take k)).2.2 = [] := by
    by_cases h4 : 4 ≤ k
    · rw [hlong h4]
    · rw [hshort h4]
  refine ⟨deserialize_no_fault c u depth, hcons, ?_, ?_, ?_⟩
  · intro h4
    rw [hlong h4]
  · intro h4
    rw [hshort (by omega)]
  · intro ht
    rw [deserialize_no_map c u depth _ ht, hcons]

/-- Claim C5, witness: the frame `5 0 0 0 | 7 1 2 3 4` cut after six bytes. -/
theorem deserialize_truncated_witness :
    pmt.deserialize sample_codec zeros (0 + 1) (([5, 0, 0, 0] ++ [7, 1, 2, 3, 4]).take 6) =
      some (.ok (pmt.of_buffer
        (some (read_block zeros (([5, 0, 0, 0] ++ [7, 1, 2, 3, 4]).take 6)).1), [])) :=
  (deserialize_truncated sample_codec zeros 0 [5, 0, 0, 0] [7, 1, 2, 3, 4] 6 rfl rfl
    (by decide)).2.2.2.2 (by decide)

/-- Claim C5, counterexample: `5 0 0 0 7 1 2 3 4` is the frame `serialize` writes
for `sample_scalar`. Cut after six bytes (inside the payload) and cut after two
bytes (inside the size field), `deserialize` returns a Value, the missing bytes
being taken from storage nobody wrote (here zeros); and no proper prefix of the
frame makes `deserialize` end in a fault at any recursion bound. -/
theorem deserialize_truncated_counterexample :
    pmt.serialize zeros_past sample_scalar [] = .ok (9, [5, 0, 0, 0, 7, 1, 2, 3, 4]) ∧
    pmt.deserialize sample_codec zeros 1 ([5, 0, 0, 0, 7, 1, 2, 3, 4].take 6) =
      some (.ok (pmt.of_buffer (some ⟨[5, 0, 0, 0, 7, 1, 0, 0, 0], 5⟩), [])) ∧
    pmt.deserialize sample_codec zeros 1 ([5, 0, 0, 0, 7, 1, 2, 3, 4].take 2) =
      some (.ok (pmt.of_buffer (some ⟨[5, 0, 0, 0, 0, 0, 0, 0, 0], 5⟩), [])) ∧
    ¬ ∃ k depth e, k < 9 ∧
        pmt.deserialize sample_codec zeros depth ([5, 0, 0, 0, 7, 1, 2, 3, 4].take k) =
          some (.error e) := by
  refine ⟨rfl, rfl, rfl, ?_⟩
  rintro ⟨k, depth, e, _, h⟩
  exact deserialize_no_fault _ _ _ _ _ h

/-- Claim C6. `pmt::data_type` fails exactly when the Value holds no scalar
buffer (`_scalar` is null): it does so on the default-constructed Value and on
every Value without a buffer, with the `std::runtime_error` of the source, and
on a Value that holds a buffer it returns the tag read from that buffer. -/
theorem data_type_fails_iff (c : Codec) (v : pmt) :
    ((∃ e, v.data_type c = .error e) ↔ v._scalar = none) ∧
    pmt.default.data_type c =
      .error (.runtime_error "Cannot get data type for unitialized pmt") ∧
    (∀ m, (pmt.mk none m).data_type c =
      .error (.runtime_error "Cannot get data type for unitialized pmt")) ∧
    (∀ b m, (pmt.mk (some b) m).data_type c = .ok (c.data_type b.raw)) := by
  refine ⟨?_, rfl, fun _ => rfl, fun _ _ => rfl⟩
  cases v with
  | mk s m => cases s <;> simp [pmt.data_type, pmt._scalar]

/-- Claim C7. Map formatting: for a map with the entries `value`, listed in
iteration order (ascending keys), whose children all format without a fault,
`operator<<` appends to the stream exactly `{ `, then the entries rendered as
the key, `: ` and the text of the child under the `pmt` dispatch, joined by
`, `, then ` }`, and ends in no fault. -/
theorem format_map (c : Codec) (F : Formatters) (value : map) (os : String)
    (h : ∀ e ∈ value, (format c F e.2).2 = none) :
    operator_shl_map c F value os =
      (os ++ "\x7b " ++
        ", ".intercalate (value.map fun e => key_text e.1 ++ ": " ++ (format c F e.2).1) ++
        " \x7d", none) := by
  cases value with
  | nil => simp [operator_shl_map, operator_shl_entries, String.intercalate]
  | cons e tl =>
    obtain ⟨k, v⟩ := e
    have hv : (format c F v).2 = none := h (k, v) (List.mem_cons_self _ _)
    simp only [operator_shl_map, operator_shl_entries, Bool.not_true, Bool.false_eq_true,
      if_false, List.map_cons, String.intercalate]
    rw [operator_shl_pmt_format, hv]
    simp only []
    rw [operator_shl_entries_rest c F tl (fun e he => h e (List.mem_cons_of_mem _ he))]
    simp only []
    rw [String.append_assoc (os ++ "\x7b ") (key_text k) ": ",
      String.append_assoc (os ++ "\x7b ") (key_text k ++ ": "), intercalate_go_append]

/-- Claim C7, witness: the map with `a` bound to the scalar 1 and `b` bound to
the vector 1, 2, 3 renders as `{ a: 1, b: [1, 2, 3] }` under the sample
formatters. -/
theorem format_map_witness :
    operator_shl_map sample_codec sample_formatters
        [([97], .mk (some ⟨[2, 0, 0, 0, 7, 1], 6⟩) none),
         ([98], .mk (some ⟨[4, 0, 0, 0, 19, 1, 2, 3], 8⟩) none)] ""
      = ("\x7b a: 1, b: [1, 2, 3] \x7d", none) :=
  (format_map sample_codec sample_formatters
    [([97], .mk (some ⟨[2, 0, 0, 0, 7, 1], 6⟩) none),
     ([98], .mk (some ⟨[4, 0, 0, 0, 19, 1, 2, 3], 8⟩) none)] "" (by decide)).trans (by decide)

/-- Claim C8. Format dispatch on a Value that holds a buffer: the `switch`
selects a family formatter exactly when the tag is one of the twelve
`Scalar<T>`, the twelve `Vector<T>` or `MapHeaderString`; a value tagged
`Scalar<T>` is printed by the formatter of `scalar<T>`, one tagged `Vector<T>`
by the formatter of `vector<T>`, a map tagged `MapHeaderString` by the map
formatter; for every other tag the call throws the `std::runtime_error` of the
`default` label and leaves the stream as it was. -/
theorem format_dispatch (c : Codec) (F : Formatters) (b : base_buffer)
    (m : Option (List (List Byte × pmt))) (os : String) :
    ((∃ f, switch_case (c.data_type b.raw) = some f) ↔ (c.data_type b.raw).supported) ∧
    (∀ T, c.data_type b.raw = Data.Scalar T →
      operator_shl_pmt c F (.mk (some b) m) os = put os (F.scalar T (.mk (some b) m))) ∧
    (∀ T, c.data_type b.raw = Data.Vector T →
      operator_shl_pmt c F (.mk (some b) m) os = put os (F.vector T (.mk (some b) m))) ∧
    (∀ entries, c.data_type b.raw = Data.MapHeaderString →
      operator_shl_pmt c F (.mk (some b) (some entries)) os =
        operator_shl_map c F entries os) ∧
    (¬ (c.data_type b.raw).supported →
      operator_shl_pmt c F (.mk (some b) m) os =
        (os, some (.runtime_error "Cannot convert non scalar pmt."))) := by
  refine ⟨switch_case_some_iff _, ?_, ?_, ?_, ?_⟩
  · intro T hT
    rw [operator_shl_pmt_tag, hT, switch_case_scalar]
  · intro T hT
    rw [operator_shl_pmt_tag, hT, switch_case_vector]
  · intro entries hT
    rw [operator_shl_pmt_tag, hT]
    rfl
  · intro hn
    rw [operator_shl_pmt_tag, switch_case_none_of_not_supported _ hn]

/-- Claim C8, witness: a Value tagged `NONE` is rejected and nothing is
written. -/
theorem format_dispatch_witness :
    operator_shl_pmt sample_codec sample_formatters (.mk (some ⟨[1, 0, 0, 0, 0], 5⟩) none) "os"
      = ("os", some (.runtime_error "Cannot convert non scalar pmt.")) :=
  (format_dispatch sample_codec sample_formatters ⟨[1, 0, 0, 0, 0], 5⟩ none "os").2.2.2.2
    (by
      rintro (⟨T, h⟩ | ⟨T, h⟩ | h)
      · cases T <;> exact absurd h (by decide)
      · cases T <;> exact absurd h (by decide)
      · exact absurd h (by decide))

/-- Claim C9, amended. `operator==(pmt, T)` compares only Values tagged
`VectorInt32`, for which it returns what `operator==(vector<int32_t>(value),
other)` returns; for a Value that holds a buffer with any other tag it throws
`std::runtime_error("Unknown pmt type passed to operator==")`, and for a Value
without a buffer it throws the error of `data_type`. -/
theorem operator_eq_dispatch {T : Type} (c : Codec)
    (vector_int32_eq : pmt → T → Except Fault Bool) (b : base_buffer)
    (m : Option (List (List Byte × pmt))) (other : T) :
    operator_eq c vector_int32_eq (.mk (some b) m) other =
      (if c.data_type b.raw = Data.VectorInt32 then vector_int32_eq (.mk (some b) m) other
       else .error (.runtime_error "Unknown pmt type passed to operator==")) ∧
    operator_eq c vector_int32_eq (.mk none m) other =
      .error (.runtime_error "Cannot get data type for unitialized pmt") := by
  refine ⟨?_, rfl⟩
  cases h : c.data_type b.raw <;>
    simp [operator_eq, pmt.data_type, pmt._scalar, base_buffer.data_type, h]

/-- Claim C9, counterexample: a Value tagged `ScalarFloat32` compared with a
`vector<int32>` (here a list of integers): the call throws, it does not return
`false`, even with an element comparison that would answer `false`. -/
theorem operator_eq_counterexample :
    operator_eq sample_codec (fun _ (_ : List Int) => Except.ok false)
        (.mk (some ⟨[5, 0, 0, 0, 1, 0, 0, 128, 63], 9⟩) none) [1, 2, 3]
      = .error (.runtime_error "Unknown pmt type passed to operator==") ∧
    operator_eq sample_codec (fun _ (_ : List Int) => Except.ok false)
        (.mk (some ⟨[5, 0, 0, 0, 1, 0, 0, 128, 63], 9⟩) none) [1, 2, 3]
      ≠ .ok false := by
  constructor
  · rfl
  · intro h; cases h

/-- Claim C10. Duplicate keys, last write wins: let a source hold a header block
tagged `MapHeaderString` that declares as many entries as follow, each entry
being the length of its key as a `uint32`, the key, and a frame that
`deserialize` decodes to the value of the entry. Then `deserialize` returns a
Value in Map state over the header block and leaves what follows the entries;
the mapping has strictly ascending keys, and binds every key to the value of
the last entry that carries it (and no other key). -/
theorem deserialize_last_write_wins (c : Codec) (u : Nat → Byte) (depth : Nat)
    (p body : List Byte) (es : List (List Byte × List Byte × pmt)) (rest : List Byte)
    (hp : p.length = 4) (hb : body.length = le_value p)
    (htag : c.data_type (p ++ body) = Data.MapHeaderString)
    (hcount : c.count (p ++ body) = es.length)
    (hkey : ∀ e ∈ es, e.1.length < 4294967296)
    (hdec : ∀ e ∈ es, decodes c u depth e.2.1 e.2.2) :
    ∃ m, pmt.deserialize c u (depth + 1) (p ++ (body ++ (map_entries_bytes es ++ rest))) =
        some (.ok (.mk (some ⟨p ++ body, le_value p⟩) (some m), rest)) ∧
      (m.Pairwise fun a b => a.1 < b.1) ∧
      ∀ k, map_find k m = last_bound k es := by
  refine ⟨es.foldl (fun m e => map_assign e.1 e.2.2 m) [], ?_,
    foldl_map_assign_ascending es [] List.Pairwise.nil, ?_⟩
  · have h := deserialize_entries_frames (pmt.deserialize c u depth) es p [] [] rest hp hkey hdec
    simp [pmt.deserialize, read_block_frame u p body _ hp hb, pmt.data_type, pmt.of_buffer,
      pmt._scalar, base_buffer.data_type, htag, hcount, h]
  · intro k
    rw [map_find_foldl]
    cases last_bound k es <;> simp [map_find]

/-- Claim C10, witness: a header declaring two entries, both with the key `a`. -/
theorem deserialize_last_write_wins_witness :
    ∃ m, pmt.deserialize sample_codec zeros (1 + 1)
        ([2, 0, 0, 0] ++ ([25, 2] ++ (map_entries_bytes
          [([97], [5, 0, 0, 0, 7, 1, 2, 3, 4], pmt.of_buffer (some ⟨[5, 0, 0, 0, 7, 1, 2, 3, 4], 5⟩)),
           ([97], [5, 0, 0, 0, 7, 9, 9, 9, 9],
             pmt.of_buffer (some ⟨[5, 0, 0, 0, 7, 9, 9, 9, 9], 5⟩))] ++ []))) =
        some (.ok (.mk (some ⟨[2, 0, 0, 0] ++ [25, 2], le_value [2, 0, 0, 0]⟩) (some m), [])) ∧
      (m.Pairwise fun a b => a.1 < b.1) ∧
      ∀ k, map_find k m = last_bound k
          [([97], [5, 0, 0, 0, 7, 1, 2, 3, 4], pmt.of_buffer (some ⟨[5, 0, 0, 0, 7, 1, 2, 3, 4], 5⟩)),
           ([97], [5, 0, 0, 0, 7, 9, 9, 9, 9],
             pmt.of_buffer (some ⟨[5, 0, 0, 0, 7, 9, 9, 9, 9], 5⟩))] :=
  deserialize_last_write_wins sample_codec zeros 1 [2, 0, 0, 0] [25, 2]
    [([97], [5, 0, 0, 0, 7, 1, 2, 3, 4], pmt.of_buffer (some ⟨[5, 0, 0, 0, 7, 1, 2, 3, 4], 5⟩)),
     ([97], [5, 0, 0, 0, 7, 9, 9, 9, 9], pmt.of_buffer (some ⟨[5, 0, 0, 0, 7, 9, 9, 9, 9], 5⟩))]
    [] rfl rfl rfl rfl (by decide)
    (by
      intro e he
      simp only [List.mem_cons, List.mem_singleton, List.not_mem_nil, or_false] at he
      rcases he with rfl | rfl
      · intro rest
        exact deserialize_frame_no_map sample_codec zeros 0 [5, 0, 0, 0] [7, 1, 2, 3, 4] rest
          rfl rfl (by decide)
      · intro rest
        exact deserialize_frame_no_map sample_codec zeros 0 [5, 0, 0, 0] [7, 9, 9, 9, 9] rest
          rfl rfl (by decide))

/-- Claim C11, amended. `deserialize` has no configured maximum and does not
compare the declared count with the bytes the source still holds: the count is
only the bound of the loop. For every source that begins with a map header,
whatever follows it (even nothing): when the header declares no entry,
`deserialize` returns an empty mapping without a nested call; when it declares
at least one entry, however many, a single call does not suffice: the first
pass of the loop is run and `deserialize` is called for the first entry (the
recursion bound 1 is exceeded), so the source is not rejected before an entry
is read. When the header declares one entry and nothing follows, the key is
taken from the previous contents of the locals (as many zero bytes as the size
field of the header says) and the child from unwritten storage, and, when that
storage does not read as a map header, `deserialize` returns a Value in Map
state with that one entry. -/
theorem deserialize_count_unchecked (c : Codec) (u : Nat → Byte) (depth : Nat)
    (p body rest : List Byte) (count : Nat)
    (hp : p.length = 4) (hb : body.length = le_value p)
    (htag : c.data_type (p ++ body) = Data.MapHeaderString)
    (hcount : c.count (p ++ body) = count) :
    (count = 0 → pmt.deserialize c u 1 (p ++ (body ++ rest)) =
      some (.ok (.mk (some ⟨p ++ body, le_value p⟩) (some []), rest))) ∧
    (count ≠ 0 → pmt.deserialize c u 1 (p ++ (body ++ rest)) = none) ∧
    (count = 1 → c.data_type (read_block u []).1.raw ≠ Data.MapHeaderString →
      pmt.deserialize c u (depth + 2) (p ++ body) =
        some (.ok (.mk (some ⟨p ++ body, le_value p⟩)
          (some [(List.replicate (le_value p) 0, pmt.of_buffer (some (read_block u []).1))]),
          []))) := by
  have hblk := read_block_frame u p body rest hp hb
  refine ⟨?_, ?_, ?_⟩
  · intro h0
    rw [deserialize_map_step c u 0 _ (by rw [hblk]; exact htag), hblk]
    simp only [hcount, h0, deserialize_entries]
  · intro hne
    obtain ⟨n, hn⟩ := Nat.exists_eq_succ_of_ne_zero hne
    rw [deserialize_map_step c u 0 _ (by rw [hblk]; exact htag), hblk]
    simp only [hcount, hn, deserialize_entries, pmt.deserialize]
  · intro h1 hjunk
    have hchild : pmt.deserialize c u (depth + 1) [] =
        some (.ok (pmt.of_buffer (some (read_block u []).1), [])) := by
      rw [deserialize_no_map c u depth [] hjunk, read_block_nil]
    have hblk0 := read_block_frame u p body [] hp hb
    simp only [List.append_nil] at hblk0
    have hloop := deserialize_entries_exhausted_first (pmt.deserialize c u (depth + 1)) _ hchild
      p 1
    rw [deserialize_map_step c u (depth + 1) (p ++ body) (by rw [hblk0]; exact htag), hblk0]
    simp only [hcount, h1, hloop]
    simp

/-- Claim C11, witness: a header that declares `2^31` entries, under `wide_codec`,
followed by nothing, is not rejected before the first nested call; a header
that declares one entry, followed by nothing, gives a Value with one entry. -/
theorem deserialize_count_unchecked_witness :
    pmt.deserialize wide_codec zeros 1 ([5, 0, 0, 0] ++ ([25, 0, 0, 0, 128] ++ [])) = none ∧
    pmt.deserialize sample_codec zeros (0 + 2) ([2, 0, 0, 0] ++ [25, 1]) =
      some (.ok (.mk (some ⟨[2, 0, 0, 0] ++ [25, 1], le_value [2, 0, 0, 0]⟩)
        (some [(List.replicate (le_value [2, 0, 0, 0]) 0,
          pmt.of_buffer (some (read_block zeros []).1))]),
        [])) :=
  ⟨(deserialize_count_unchecked wide_codec zeros 0 [5, 0, 0, 0] [25, 0, 0, 0, 128] []
      2147483648 rfl rfl rfl (by decide)).2.1 (by decide),
   (deserialize_count_unchecked sample_codec zeros 0 [2, 0, 0, 0] [25, 1] [] 1
      rfl rfl rfl rfl).2.2 rfl (by decide)⟩

/-- Claim C11, counterexample: the six bytes `2 0 0 0 | 25 3` are a map header
that declares three entries, and nothing follows. `deserialize` returns a Value
in Map state (with one entry built from storage nobody wrote, here zeros); at
no recursion bound does it end in a fault. -/
theorem deserialize_count_unchecked_counterexample :
    sample_codec.data_type [2, 0, 0, 0, 25, 3] = Data.MapHeaderString ∧
    sample_codec.count [2, 0, 0, 0, 25, 3] = 3 ∧
    pmt.deserialize sample_codec zeros 2 [2, 0, 0, 0, 25, 3] =
      some (.ok (.mk (some ⟨[2, 0, 0, 0, 25, 3], 2⟩)
        (some [([0, 0], pmt.of_buffer (some ⟨[0, 0, 0, 0], 0⟩))]), [])) ∧
    ¬ ∃ bound e, pmt.deserialize sample_codec zeros bound [2, 0, 0, 0, 25, 3] =
        some (.error e) := by
  refine ⟨rfl, rfl, ?_, ?_⟩
  · rfl
  · rintro ⟨bound, e, h⟩
    exact deserialize_no_fault _ _ _ _ _ h

/-- Claim C12, amended. The count recorded in the header is not checked against
the mapping. Every Value in Map state that `deserialize` returns, and every
child in Map state reachable from it, holds at most as many entries as its
header buffer records. For a header followed by as many well-formed entries as
it declares, the mapping holds as many entries as there are different keys
among them: the recorded count equals the number of entries present exactly
when no key occurs twice. -/
theorem count_at_most (c : Codec) (u : Nat → Byte) (depth : Nat)
    (p body : List Byte) (es : List (List Byte × List Byte × pmt)) (rest : List Byte)
    (hp : p.length = 4) (hb : body.length = le_value p)
    (htag : c.data_type (p ++ body) = Data.MapHeaderString)
    (hcount : c.count (p ++ body) = es.length)
    (hkey : ∀ e ∈ es, e.1.length < 4294967296)
    (hdec : ∀ e ∈ es, decodes c u depth e.2.1 e.2.2) :
    (∀ (bound : Nat) (sb : List Byte) (r : pmt) (left : List Byte),
      pmt.deserialize c u bound sb = some (.ok (r, left)) → pmt.all (count_bounds c) r) ∧
    ∃ m, pmt.deserialize c u (depth + 1) (p ++ (body ++ (map_entries_bytes es ++ rest))) =
        some (.ok (.mk (some ⟨p ++ body, le_value p⟩) (some m), rest)) ∧
      m.length = (es.map (fun e => e.1)).dedup.length ∧
      (c.count (p ++ body) = m.length ↔ (es.map (fun e => e.1)).Nodup) := by
  refine ⟨?_, es.foldl (fun m e => map_assign e.1 e.2.2 m) [],
    deserialize_map_frame c u depth p body es rest hp hb htag hcount hkey hdec,
    foldl_map_assign_length es, ?_⟩
  · apply deserialize_all c u (count_bounds c)
    · intro b _ b2 entries _ hm
      cases hm
    · intro b m _ hlen b2 entries hb2 hm
      cases hb2
      cases hm
      exact hlen
  · rw [hcount, foldl_map_assign_length]
    constructor
    · intro h
      have hsub := List.dedup_sublist (es.map (fun e => e.1))
      have := hsub.eq_of_length (by simpa using h.symm)
      exact List.dedup_eq_self.mp this
    · intro h
      rw [List.dedup_eq_self.mpr h]
      simp

/-- Claim C12, witness: a header declaring two entries, with the keys `a` and
`b`. -/
theorem count_at_most_witness :
    ∃ m, pmt.deserialize sample_codec zeros (1 + 1)
        ([2, 0, 0, 0] ++ ([25, 2] ++ (map_entries_bytes
          [([97], [5, 0, 0, 0, 7, 1, 2, 3, 4],
             pmt.of_buffer (some ⟨[5, 0, 0, 0, 7, 1, 2, 3, 4], 5⟩)),
           ([98], [5, 0, 0, 0, 7, 9, 9, 9, 9],
             pmt.of_buffer (some ⟨[5, 0, 0, 0, 7, 9, 9, 9, 9], 5⟩))] ++ []))) =
        some (.ok (.mk (some ⟨[2, 0, 0, 0] ++ [25, 2], le_value [2, 0, 0, 0]⟩) (some m), [])) ∧
      m.length = ([[97], [98]] : List (List Byte)).dedup.length ∧
      (sample_codec.count ([2, 0, 0, 0] ++ [25, 2]) = m.length ↔
        ([[97], [98]] : List (List Byte)).Nodup) :=
  (count_at_most sample_codec zeros 1 [2, 0, 0, 0] [25, 2]
    [([97], [5, 0, 0, 0, 7, 1, 2, 3, 4], pmt.of_buffer (some ⟨[5, 0, 0, 0, 7, 1, 2, 3, 4], 5⟩)),
     ([98], [5, 0, 0, 0, 7, 9, 9, 9, 9], pmt.of_buffer (some ⟨[5, 0, 0, 0, 7, 9, 9, 9, 9], 5⟩))]
    [] rfl rfl rfl rfl (by decide)
    (by
      intro e he
      simp only [List.mem_cons, List.mem_singleton, List.not_mem_nil, or_false] at he
      rcases he with rfl | rfl
      · intro rest
        exact deserialize_frame_no_map sample_codec zeros 0 [5, 0, 0, 0] [7, 1, 2, 3, 4] rest
          rfl rfl (by decide)
      · intro rest
        exact deserialize_frame_no_map sample_codec zeros 0 [5, 0, 0, 0] [7, 9, 9, 9, 9] rest
          rfl rfl (by decide))).2

/-- Claim C12, counterexample: a header that records the count 2, followed by two
well-formed entries that both carry the key `a`. `deserialize` returns a Value
in Map state whose mapping holds one entry, so the count invariant fails for
it. -/
theorem count_at_most_counterexample :
    pmt.deserialize sample_codec zeros 2
        [2, 0, 0, 0, 25, 2, 1, 0, 0, 0, 97, 5, 0, 0, 0, 7, 1, 2, 3, 4,
          1, 0, 0, 0, 97, 5, 0, 0, 0, 7, 9, 9, 9, 9] =
      some (.ok (.mk (some ⟨[2, 0, 0, 0, 25, 2], 2⟩)
        (some [([97], pmt.of_buffer (some ⟨[5, 0, 0, 0, 7, 9, 9, 9, 9], 5⟩))]), [])) ∧
    sample_codec.count [2, 0, 0, 0, 25, 2] = 2 ∧
    ¬ pmt.all (count_matches sample_codec) (.mk (some ⟨[2, 0, 0, 0, 25, 2], 2⟩)
        (some [([97], pmt.of_buffer (some ⟨[5, 0, 0, 0, 7, 9, 9, 9, 9], 5⟩))])) := by
  refine ⟨rfl, rfl, ?_⟩
  intro h
  rw [pmt_all_mk] at h
  have h2 := h.1 _ _ rfl rfl
  exact absurd h2 (by decide)

/-- Claim C13, the code on every well-formed frame that is not a map header
(`p` the 4-byte size field holding `n`, `body` of `n` bytes): `deserialize`
returns a Value whose buffer points at the `n + 4` bytes of the frame and
records the size `n`, and `serialize` of that Value writes the first `n` bytes
of the frame and returns `n`: four bytes fewer than the frame. -/
theorem reserialize_decoded (c : Codec) (u : Nat → Byte) (past : List Byte → Nat → Byte)
    (depth : Nat) (p body : List Byte)
    (hp : p.length = 4) (hb : body.length = le_value p)
    (ht : c.data_type (p ++ body) ≠ Data.MapHeaderString) :
    pmt.deserialize c u (depth + 1) (p ++ body) =
        some (.ok (pmt.of_buffer (some ⟨p ++ body, le_value p⟩), [])) ∧
    pmt.serialize past (pmt.of_buffer (some ⟨p ++ body, le_value p⟩)) [] =
        .ok (le_value p, (p ++ body).take (le_value p)) ∧
    ((p ++ body).take (le_value p)).length + 4 = (p ++ body).length := by
  refine ⟨?_, ?_, ?_⟩
  · have h := deserialize_frame_no_map c u depth p body [] hp hb ht
    simpa using h
  · simp [pmt.of_buffer, serialize_no_map]
  · simp [List.length_take, hp, hb]
    omega

/-- Claim C13, the code at the failing input: the frame `5 0 0 0 | 7 1 2 3 4` is
decoded to a Value of recorded size 5, which `serialize` writes as the five
bytes `5 0 0 0 7`. -/
theorem reserialize_decoded_witness :
    pmt.deserialize sample_codec zeros (0 + 1) ([5, 0, 0, 0] ++ [7, 1, 2, 3, 4]) =
        some (.ok (pmt.of_buffer (some ⟨[5, 0, 0, 0, 7, 1, 2, 3, 4], 5⟩), [])) ∧
    pmt.serialize zeros_past (pmt.of_buffer (some ⟨[5, 0, 0, 0, 7, 1, 2, 3, 4], 5⟩)) [] =
        .ok (5, [5, 0, 0, 0, 7]) :=
  ⟨(reserialize_decoded sample_codec zeros zeros_past 0 [5, 0, 0, 0] [7, 1, 2, 3, 4]
      rfl rfl (by decide)).1, rfl⟩

/-- Claim C14, amended. `deserialize` has no maximum nesting depth and no depth
counter: it makes one nested call for every map level of the stream and does
not stop on account of the depth. For every `d`, on a source that begins with
`d` maps nested in one another (each a header declaring one entry, around any
innermost bytes) the calls of `deserialize` nest more than `d` deep: no
recursion bound of `d` or less is enough for the call to return or to fail.
So no number bounds the depth of the recursion on every input. -/
theorem deserialize_depth_unbounded (c : Codec) (u : Nat → Byte)
    (hp hbody leaf key : List Byte) (d : Nat) (rest : List Byte)
    (hhp : hp.length = 4) (hhb : hbody.length = le_value hp)
    (hht : c.data_type (hp ++ hbody) = Data.MapHeaderString)
    (hhc : c.count (hp ++ hbody) = 1)
    (hkey : key.length < 4294967296) :
    ∀ bound, bound ≤ d →
      pmt.deserialize c u bound (nested_frame (hp ++ hbody) leaf key d ++ rest) = none :=
  fun bound hle =>
    deserialize_nested_none c u hp hbody leaf key hhp hhb hht hhc hkey d bound rest hle

/-- Claim C14, witness: on three maps nested in one another the calls nest more
than three deep; four nested calls decode them. -/
theorem deserialize_depth_unbounded_witness :
    pmt.deserialize sample_codec zeros 3
        (nested_frame ([2, 0, 0, 0] ++ [25, 1]) [5, 0, 0, 0, 7, 1, 2, 3, 4] [97] 3 ++ []) =
      none ∧
    pmt.deserialize sample_codec zeros 4
        (nested_frame ([2, 0, 0, 0] ++ [25, 1]) [5, 0, 0, 0, 7, 1, 2, 3, 4] [97] 3 ++ []) =
      some (.ok (nested_value [2, 0, 0, 0, 25, 1] 2 [5, 0, 0, 0, 7, 1, 2, 3, 4] 5 [97] 3, [])) :=
  ⟨deserialize_depth_unbounded sample_codec zeros [2, 0, 0, 0] [25, 1]
      [5, 0, 0, 0, 7, 1, 2, 3, 4] [97] 3 [] rfl rfl rfl rfl (by decide) 3 (Nat.le_refl 3),
   rfl⟩

/-- Claim C14, counterexample: three nested maps are decoded without a failure;
there is no depth beyond which every nested stream makes `deserialize` fail,
and no number that bounds the depth of the recursion on every input. -/
theorem deserialize_depth_unbounded_counterexample :
    pmt.deserialize sample_codec zeros 4
        (nested_frame [2, 0, 0, 0, 25, 1] [5, 0, 0, 0, 7, 1, 2, 3, 4] [97] 3) =
      some (.ok (nested_value [2, 0, 0, 0, 25, 1] 2 [5, 0, 0, 0, 7, 1, 2, 3, 4] 5 [97] 3, [])) ∧
    (¬ ∃ D : Nat, ∀ d, D < d → ∃ bound e,
      pmt.deserialize sample_codec zeros bound
        (nested_frame [2, 0, 0, 0, 25, 1] [5, 0, 0, 0, 7, 1, 2, 3, 4] [97] d) =
          some (.error e)) ∧
    (¬ ∃ D : Nat, ∀ d, ∃ bound, bound ≤ D ∧
      pmt.deserialize sample_codec zeros bound
        (nested_frame [2, 0, 0, 0, 25, 1] [5, 0, 0, 0, 7, 1, 2, 3, 4] [97] d) ≠ none) := by
  refine ⟨rfl, ?_, ?_⟩
  · rintro ⟨D, h⟩
    obtain ⟨bound, e, he⟩ := h (D + 1) (Nat.lt_succ_self D)
    exact deserialize_no_fault _ _ _ _ _ he
  · rintro ⟨D, h⟩
    obtain ⟨bound, hle, hne⟩ := h D
    have := deserialize_nested_none sample_codec zeros [2, 0, 0, 0] [25, 1]
      [5, 0, 0, 0, 7, 1, 2, 3, 4] [97] rfl rfl rfl rfl (by decide) D bound [] hle
    apply hne
    simpa using this

/-- Claim C15. Every Value that `deserialize` returns, and every child Value
reachable from it, has a mapping if and only if it holds a buffer whose tag is
`MapHeaderString`; the Value built by the default constructor and the Values
built by the constructor from a buffer handle have no mapping. -/
theorem map_state_iff_tag (c : Codec) (u : Nat → Byte) (depth : Nat) (sb : List Byte)
    (r : pmt) (rest : List Byte)
    (h : pmt.deserialize c u depth sb = some (.ok (r, rest))) :
    pmt.all (state_matches_tag c) r ∧
    pmt.default._map = none ∧
    ∀ other, (pmt.of_buffer other)._map = none := by
  refine ⟨?_, rfl, fun _ => rfl⟩
  apply deserialize_all c u (state_matches_tag c) _ _ depth sb r rest h
  · intro b hb
    simp [state_matches_tag, hb]
  · intro b m hb _
    simp [state_matches_tag, hb]

/-- Claim C15, witness: the Value decoded from a map frame with one entry. -/
theorem map_state_iff_tag_witness :
    pmt.all (state_matches_tag sample_codec) (.mk (some ⟨[2, 0, 0, 0, 25, 1], 2⟩)
        (some [([97], pmt.of_buffer (some ⟨[5, 0, 0, 0, 7, 1, 2, 3, 4], 5⟩))])) ∧
    pmt.default._map = none ∧
    ∀ other, (pmt.of_buffer other)._map = none :=
  map_state_iff_tag sample_codec zeros 2
    [2, 0, 0, 0, 25, 1, 1, 0, 0, 0, 97, 5, 0, 0, 0, 7, 1, 2, 3, 4]
    (.mk (some ⟨[2, 0, 0, 0, 25, 1], 2⟩)
        (some [([97], pmt.of_buffer (some ⟨[5, 0, 0, 0, 7, 1, 2, 3, 4], 5⟩))])) [] rfl

/-- Claim C16, the code at the failing input: on the default-constructed Value
`serialize` reads `_scalar->size()` through the null `_scalar`, at its first
statement, whatever the sink; it throws nothing. The member `data_type` tests
`_scalar` and throws a `std::runtime_error` on the same Value. -/
theorem serialize_empty (c : Codec) (past : List Byte → Nat → Byte) (sb : List Byte) :
    pmt.serialize past pmt.default sb = .error .null_dereference ∧
    pmt.default.data_type c =
      .error (.runtime_error "Cannot get data type for unitialized pmt") :=
  ⟨rfl, rfl⟩

/-- Claim C17. `deserialize` consumes exactly one frame: for every source that
begins with a frame `F1` of the wire grammar (a frame that is not a map
header, or a map header followed by as many entries as it declares, each a key
length, a key and a nested frame), it terminates within the recursion bound
that the nesting of `F1` gives, returns the Value `F1` stands for and leaves
the bytes behind `F1` unread; so of two frames written back to back the first
call decodes the first and leaves the second, which the next call decodes. -/
theorem deserialize_one_frame (c : Codec) (u : Nat → Byte) (d1 d2 : Nat)
    (F1 F2 rest : List Byte) (v1 v2 : pmt)
    (h1 : wire_frame c d1 F1 v1) (h2 : wire_frame c d2 F2 v2) :
    pmt.deserialize c u d1 (F1 ++ rest) = some (.ok (v1, rest)) ∧
    pmt.deserialize c u d1 (F1 ++ (F2 ++ rest)) = some (.ok (v1, F2 ++ rest)) ∧
    pmt.deserialize c u d2 (F2 ++ rest) = some (.ok (v2, rest)) :=
  ⟨deserialize_wire_frame c u d1 F1 v1 h1 rest,
   deserialize_wire_frame c u d1 F1 v1 h1 (F2 ++ rest),
   deserialize_wire_frame c u d2 F2 v2 h2 rest⟩

/-- Claim C17, witness: a map frame with one entry, followed by a scalar frame and
one further byte. -/
theorem deserialize_one_frame_witness :
    pmt.deserialize sample_codec zeros (1 + 1)
        ([2, 0, 0, 0] ++ ([25, 1] ++ map_entries_bytes
            [([97], [5, 0, 0, 0, 7, 1, 2, 3, 4],
              pmt.of_buffer (some ⟨[5, 0, 0, 0, 7, 1, 2, 3, 4], 5⟩))]) ++
          ([5, 0, 0, 0] ++ [7, 9, 9, 9, 9] ++ [42])) =
      some (.ok (.mk (some ⟨[2, 0, 0, 0] ++ [25, 1], le_value [2, 0, 0, 0]⟩)
          (some ([([97], [5, 0, 0, 0, 7, 1, 2, 3, 4],
              pmt.of_buffer (some ⟨[5, 0, 0, 0, 7, 1, 2, 3, 4], 5⟩))].foldl
            (fun m e => map_assign e.1 e.2.2 m) [])),
        [5, 0, 0, 0] ++ [7, 9, 9, 9, 9] ++ [42])) ∧
    pmt.deserialize sample_codec zeros (0 + 1) ([5, 0, 0, 0] ++ [7, 9, 9, 9, 9] ++ [42]) =
      some (.ok (pmt.of_buffer (some ⟨[5, 0, 0, 0] ++ [7, 9, 9, 9, 9], le_value [5, 0, 0, 0]⟩),
        [42])) :=
  (deserialize_one_frame sample_codec zeros (1 + 1) (0 + 1)
    ([2, 0, 0, 0] ++ ([25, 1] ++ map_entries_bytes
      [([97], [5, 0, 0, 0, 7, 1, 2, 3, 4],
        pmt.of_buffer (some ⟨[5, 0, 0, 0, 7, 1, 2, 3, 4], 5⟩))]))
    ([5, 0, 0, 0] ++ [7, 9, 9, 9, 9]) [42] _ _
    (wire_frame.map_frame 1 [2, 0, 0, 0] [25, 1]
      [([97], [5, 0, 0, 0, 7, 1, 2, 3, 4],
        pmt.of_buffer (some ⟨[5, 0, 0, 0, 7, 1, 2, 3, 4], 5⟩))]
      rfl rfl rfl rfl (by decide)
      (by
        intro e he
        simp only [List.mem_singleton] at he
        subst he
        exact wire_frame.frame 0 [5, 0, 0, 0] [7, 1, 2, 3, 4] rfl rfl (by decide)))
    (wire_frame.frame 0 [5, 0, 0, 0] [7, 9, 9, 9, 9] rfl rfl (by decide))).2

/-- Claim C18. Legacy codec of `base`: for every source that begins with a
`uint32` holding `n` and then `n` bytes `b`, `base::deserialize` returns an
object whose buffer is `b` with size `n` (the size field is not kept) and
leaves what follows; `base::serialize` on that object, on a sink with room for
`n` bytes, appends exactly `b` and returns `true`; and `base::serialize`
returns `true` on every object and every sink, whatever room the sink has. -/
theorem base_codec (u : Nat → Byte) (p b rest sink : List Byte) (room : Nat) (obj : base)
    (hp : p.length = 4) (hb : b.length = le_value p) :
    base.deserialize u (p ++ (b ++ rest)) = (base.of_data b b.length, rest) ∧
    (b.length ≤ room →
      base.serialize (base.deserialize u (p ++ (b ++ rest))).1 room sink = (true, sink ++ b)) ∧
    (base.serialize obj room sink).1 = true := by
  have hd := base_deserialize_frame u p b rest hp hb
  refine ⟨by rw [hd, hb], ?_, ?_⟩
  · intro hroom
    rw [hd]
    simp only [base.serialize, base.of_data, sputn_room]
    have hmin : min (le_value p) room = b.length := by rw [← hb]; exact Nat.min_eq_left hroom
    simp only [hmin, List.take_length]
    simp
  · simp only [base.serialize, sputn_room]
    simp
    omega

/-- Claim C18, witness: the source `3 0 0 0 | 10 11 12` and two further bytes; the
object is written whole to a sink with room for three bytes, and `serialize`
also returns `true` on a sink that accepts one byte only. -/
theorem base_codec_witness :
    base.deserialize zeros ([3, 0, 0, 0] ++ ([10, 11, 12] ++ [9, 9])) =
        (base.of_data [10, 11, 12] 3, [9, 9]) ∧
      base.serialize (base.of_data [10, 11, 12] 3) 3 [] = (true, [10, 11, 12]) ∧
      base.serialize (base.of_data [10, 11, 12] 3) 1 [] = (true, [10]) := by
  have h := base_codec zeros [3, 0, 0, 0] [10, 11, 12] [9, 9] [] 3 (base.of_data [10, 11, 12] 3)
    rfl rfl
  exact ⟨h.1, by decide, by decide⟩

end pmtf
